import Mathlib

/-!
Verification of the storyloom core: the runtime state machine
(packages/core/src/runtime.ts) and the static story analyzer
(packages/core/src/analyzer.ts), embedded shallowly.  JS records are
modelled as association lists in insertion order, JS Sets as duplicate
free lists in insertion order, thrown exceptions as Except, and the
TypeError raised by an undefined property access as a failing Option /
Except value.
-/

set_option maxHeartbeats 1600000

namespace Woven

/-- Marker that makes a node terminal (the ending field in types.ts). -/
structure Ending where
  id : String
  label : Option String
  deriving DecidableEq

/-- Condition is a tagged variant: expression or hook (types.ts). -/
inductive Condition where
  | expression (expr : String)
  | hook (name : String)
  deriving DecidableEq

/-- Target of a choice: optional knot (omitted means stay in the current knot) plus a node id. -/
structure Target where
  knot : Option String
  node : String
  deriving DecidableEq

/-- A choice: id, label, target, optional effect, optional condition (types.ts). -/
structure Choice (E : Type) where
  id : String
  label : String
  target : Target
  effect : Option E
  condition : Option Condition
  deriving DecidableEq

/-- Display text of a node: one string or an ordered sequence of strings. -/
inductive TextVal where
  | single (s : String)
  | multi (l : List String)
  deriving DecidableEq

/-- A node: a story beat (types.ts).  Optional fields are Options. -/
structure Node (E : Type) where
  id : String
  text : Option TextVal
  tags : Option (List String)
  choices : Option (List (Choice E))
  effect : Option E
  ending : Option Ending
  deriving DecidableEq

/-- A knot: an id, an entry node id, and a node map (modelled as an
association list in insertion order, keys unique). -/
structure Knot (E : Type) where
  id : String
  entryNode : String
  nodes : List (String × Node E)
  deriving DecidableEq

/-- A story: version tag, entry knot id, knot map. -/
structure Story (E : Type) where
  version : Nat
  entryKnot : String
  knots : List (String × Knot E)
  deriving DecidableEq

/-- Lookup in a JS record / Map modelled as an association list: first
binding for the key, none when absent (JS gives undefined). -/
def lookupS {α : Type} : List (String × α) → String → Option α
  | [], _ => none
  | (k, v) :: t, key => if k = key then some v else lookupS t key

/-- Lookup with a default, modelling patterns such as map.get(k) or []. -/
def lookupD {α : Type} (m : List (String × α)) (key : String) (d : α) : α :=
  (lookupS m key).getD d

/-- JS Map.set: replace the value in place when the key exists (keeping
its position), otherwise append the new binding at the end. -/
def insertS {α : Type} : List (String × α) → String → α → List (String × α)
  | [], key, v => [(key, v)]
  | (k, w) :: t, key, v => if k = key then (key, v) :: t else (k, w) :: insertS t key v

/-- JS Set.add: append at the end when the element is new, keep the set
unchanged when it is already present (insertion order survives). -/
def addS (s : List String) (x : String) : List String :=
  if x ∈ s then s else s ++ [x]

/-- JS truthiness of an optional string in the pattern target.knot or
fallback: an absent knot and the empty string both fall back. -/
def jsOrKnot (o : Option String) (d : String) : String :=
  match o with
  | none => d
  | some k => if k = "" then d else k

/-- The list of effects carried by an optional effect value: the JS
pattern x ? [x] : [] for an optional field. -/
def optList {E : Type} : Option E → List E
  | some e => [e]
  | none => []

/-- Text normalization of buildStepResult: wrap a single string, pass an
array through, default to empty. -/
def textToList : Option TextVal → List String
  | some (.single s) => [s]
  | some (.multi l) => l
  | none => []

/-! Runtime (packages/core/src/runtime.ts). -/

/-- Runtime configuration: condition hooks table and optional expression
evaluator.  An absent options argument is the empty configuration. -/
structure RuntimeOptions (S : Type) where
  conditionHooks : List (String × (S → Bool))
  expressionEvaluator : Option (String → S → Bool)

/-- StepResult: the choices field keeps only (id, label) pairs exactly as
the source maps them. -/
structure StepResult (E : Type) where
  nodeId : String
  knotId : String
  text : List String
  tags : List String
  ending : Option Ending
  choices : List (String × String)
  effects : List E
  deriving DecidableEq

/-- A runtime instance: the story, the options, and the only mutable
state, the current position (knotId, nodeId). -/
structure StoryRuntime (E S : Type) where
  story : Story E
  options : RuntimeOptions S
  currentKnotId : String
  currentNodeId : String

/-- getNode from runtime.ts: look the knot up, then the node, throwing a
descriptive error when either is missing. -/
def getNode {E : Type} (story : Story E) (knotId nodeId : String) : Except String (Node E) :=
  match lookupS story.knots knotId with
  | none => .error ("Knot \"" ++ knotId ++ "\" not found.")
  | some knot =>
    match lookupS knot.nodes nodeId with
    | none => .error ("Node \"" ++ nodeId ++ "\" in knot \"" ++ knotId ++ "\" not found.")
    | some node => .ok node

/-- evaluateCondition from runtime.ts: no condition always passes; a hook
is resolved against the registered table and a missing hook throws; an
expression needs the injected evaluator and throws when it is absent. -/
def evaluateCondition {S : Type} (options : RuntimeOptions S)
    (condition : Option Condition) (state : S) : Except String Bool :=
  match condition with
  | none => .ok true
  | some (.hook name) =>
    match lookupS options.conditionHooks name with
    | some h => .ok (h state)
    | none =>
      .error ("Condition hook \"" ++ name ++
        "\" not found. Register it via RuntimeOptions.conditionHooks.")
  | some (.expression expr) =>
    match options.expressionEvaluator with
    | some ev => .ok (ev expr state)
    | none =>
      .error ("Expression evaluator not provided for expr: \"" ++ expr ++
        "\". Register it via RuntimeOptions.expressionEvaluator.")

/-- Monadic filter modelling Array.prototype.filter with a callback that
may throw: elements are tested in order and the first thrown error
aborts the whole filter. -/
def filterE {α : Type} (p : α → Except String Bool) : List α → Except String (List α)
  | [] => .ok []
  | a :: as => do
    let b ← p a
    let rest ← filterE p as
    pure (if b then a :: rest else rest)

/-- buildStepResult from runtime.ts: text normalizes to a list, tags
default to [], choices are condition filtered and reduced to (id, label),
and effects are the extra effects followed by the node effect. -/
def buildStepResult {E S : Type} (story : Story E) (options : RuntimeOptions S)
    (knotId nodeId : String) (state : S) (extraEffects : List E) :
    Except String (StepResult E) := do
  let node ← getNode story knotId nodeId
  let kept ← filterE (fun c => evaluateCondition options c.condition state) (node.choices.getD [])
  pure {
    nodeId := nodeId
    knotId := knotId
    text := textToList node.text
    tags := node.tags.getD []
    ending := node.ending
    choices := kept.map (fun c => (c.id, c.label))
    effects := extraEffects ++ optList node.effect
  }

/-- createRuntime from runtime.ts: the initial position reads
story.knots[entryKnot].entryNode.  A missing entry knot makes that
property access throw a TypeError (modelled as error); the entry node id
is copied without checking that the node itself exists. -/
def createRuntime {E S : Type} (story : Story E) (options : RuntimeOptions S) :
    Except String (StoryRuntime E S) :=
  match lookupS story.knots story.entryKnot with
  | none => .error "TypeError: cannot read entryNode of undefined"
  | some knot => .ok {
      story := story
      options := options
      currentKnotId := story.entryKnot
      currentNodeId := knot.entryNode
    }

/-- current from runtime.ts: a StepResult at the position, no mutation. -/
def current {E S : Type} (rt : StoryRuntime E S) (state : S) : Except String (StepResult E) :=
  buildStepResult rt.story rt.options rt.currentKnotId rt.currentNodeId state []

/-- choose from runtime.ts.  The second component of the result is the
runtime as left behind by the call: the position is mutated after the
target existence check but before buildStepResult runs, so an error
thrown while building the step result leaves the moved position. -/
def choose {E S : Type} (rt : StoryRuntime E S) (choiceId : String) (state : S) :
    Except String (StepResult E) × StoryRuntime E S :=
  match getNode rt.story rt.currentKnotId rt.currentNodeId with
  | .error e => (.error e, rt)
  | .ok node =>
    match (node.choices.getD []).find? (fun c => c.id == choiceId) with
    | none =>
      (.error ("Choice \"" ++ choiceId ++ "\" not found in node \"" ++
        rt.currentNodeId ++ "\"."), rt)
    | some choice =>
      match evaluateCondition rt.options choice.condition state with
      | .error e => (.error e, rt)
      | .ok false =>
        (.error ("Choice \"" ++ choiceId ++ "\" is not available due to condition."), rt)
      | .ok true =>
        match getNode rt.story (jsOrKnot choice.target.knot rt.currentKnotId)
            choice.target.node with
        | .error e => (.error e, rt)
        | .ok _ =>
          (buildStepResult rt.story rt.options (jsOrKnot choice.target.knot rt.currentKnotId)
            choice.target.node state (optList choice.effect),
           { rt with currentKnotId := jsOrKnot choice.target.knot rt.currentKnotId,
                     currentNodeId := choice.target.node })

/-- divert from runtime.ts: unconditional jump with the same target
resolution and existence check as choose, no choice lookup, no condition
evaluation, no extra effect. -/
def divert {E S : Type} (rt : StoryRuntime E S) (tgt : Target) (state : S) :
    Except String (StepResult E) × StoryRuntime E S :=
  match getNode rt.story (jsOrKnot tgt.knot rt.currentKnotId) tgt.node with
  | .error e => (.error e, rt)
  | .ok _ =>
    (buildStepResult rt.story rt.options (jsOrKnot tgt.knot rt.currentKnotId) tgt.node state [],
     { rt with currentKnotId := jsOrKnot tgt.knot rt.currentKnotId, currentNodeId := tgt.node })

/-- getPosition from runtime.ts. -/
def getPosition {E S : Type} (rt : StoryRuntime E S) : String × String :=
  (rt.currentKnotId, rt.currentNodeId)

/-- A position is valid when it references an existing node of the story. -/
def positionValid {E S : Type} (rt : StoryRuntime E S) : Prop :=
  ∃ node, getNode rt.story rt.currentKnotId rt.currentNodeId = .ok node

/-! Analyzer (packages/core/src/analyzer.ts). -/

/-- The unique node key: knotId and nodeId joined by a colon (uId). -/
def uId (k n : String) : String := k ++ ":" ++ n

/-- Split of a character list at a separator, modelling the JS
String.prototype.split with a one character separator. -/
def splitChar (sep : Char) : List Char → List (List Char)
  | [] => [[]]
  | c :: cs =>
    if c = sep then [] :: splitChar sep cs
    else
      match splitChar sep cs with
      | [] => [[c]]
      | h :: t => (c :: h) :: t

/-- The JS u.split(sep) for a one character separator. -/
def jsSplit (sep : Char) (s : String) : List String :=
  (splitChar sep s.data).map String.mk

/-- parseUid from analyzer.ts: split at the colon and take the first two
parts as knotId and nodeId. -/
def parseUid (u : String) : String × String :=
  ((jsSplit ':' u).getD 0 "", (jsSplit ':' u).getD 1 "")

/-- The derived graph: adjacency map, the set of all node keys, and the
set of terminal node keys, in JS insertion order. -/
structure Graph where
  adjacency : List (String × List String)
  allNodes : List String
  terminalNodes : List String

/-- Step 1 of analyzeStory: build the directed graph over node keys.  A
choice target with an omitted (or empty, hence falsy) knot id defaults to
the knot of the source node. -/
def buildGraph {E : Type} (story : Story E) : Graph :=
  story.knots.foldl (fun g kv =>
    kv.2.nodes.foldl (fun g2 nv =>
      let u := uId kv.1 nv.1
      let outgoing := (nv.2.choices.getD []).map
        (fun c => uId (jsOrKnot c.target.knot kv.1) c.target.node)
      { adjacency := insertS g2.adjacency u outgoing
        allNodes := addS g2.allNodes u
        terminalNodes :=
          if nv.2.ending.isSome then addS g2.terminalNodes u else g2.terminalNodes }) g)
    ⟨[], [], []⟩

/-- The outgoing edges of a node key: adjacency.get(u) or []. -/
def adjOf (g : Graph) (u : String) : List String := lookupD g.adjacency u []

/-- The inner loop of the BFS in analyzeStory: push every neighbor that
is an existing node and not yet visited onto both the visited set and the
queue. -/
def bfsAddNexts (allN : List String) :
    List String → List String → List String → List String × List String
  | visited, queue, [] => (visited, queue)
  | visited, queue, w :: ws =>
    if w ∈ allN ∧ ¬ w ∈ visited then
      bfsAddNexts allN (visited ++ [w]) (queue ++ [w]) ws
    else
      bfsAddNexts allN visited queue ws

/-- The BFS loop of analyzeStory, written with an explicit fuel that is
structurally decreasing: take the queue head, enqueue its fresh existing
neighbors, and stop when the queue is empty.  Each loop iteration
strictly decreases the number of unvisited nodes plus the queue length,
so running it with that value as fuel gives the exact loop semantics. -/
def bfsF (adj : List (String × List String)) (allN : List String) :
    Nat → List String → List String → List String
  | 0, visited, _ => visited
  | _ + 1, visited, [] => visited
  | fuel + 1, visited, curr :: rest =>
    bfsF adj allN fuel
      (bfsAddNexts allN visited rest (lookupD adj curr [])).1
      (bfsAddNexts allN visited rest (lookupD adj curr [])).2

/-- The fuel bound of the BFS loop: unvisited node count plus queue
length. -/
def bfsMeasure (allN visited queue : List String) : Nat :=
  (allN.filter (fun x => decide (¬ x ∈ visited))).length + queue.length

/-- The BFS of analyzeStory: the fueled loop at its sufficient fuel. -/
def bfs (adj : List (String × List String)) (allN : List String)
    (visited queue : List String) : List String :=
  bfsF adj allN (bfsMeasure allN visited queue) visited queue

/-- Issue kinds of the analyzer. -/
inductive IssueCode where
  | INESCAPABLE_LOOP
  | DEAD_END
  | UNREACHABLE
  deriving DecidableEq

/-- An analysis issue: kind, example path, optional SCC members, message. -/
structure AnalysisIssue where
  code : IssueCode
  pathExample : List String
  scc : Option (List String)
  message : String
  deriving DecidableEq

/-- The analysis result: the list of issues. -/
structure AnalysisResult where
  issues : List AnalysisIssue
  deriving DecidableEq

/-- The issue pushed when the entry key is missing from allNodes. -/
def mkEntryMissingIssue (entryUid : String) : AnalysisIssue :=
  ⟨.UNREACHABLE, [], none, "Entry node " ++ entryUid ++ " does not exist."⟩

/-- The issue pushed for one unreachable node key. -/
def mkUnreachableIssue (u : String) : AnalysisIssue :=
  ⟨.UNREACHABLE, [(parseUid u).2], none,
    "Node " ++ (parseUid u).1 ++ "." ++ (parseUid u).2 ++ " is unreachable from start."⟩

/-- The issue pushed for one reachable dead end node key. -/
def mkDeadEndIssue (u : String) : AnalysisIssue :=
  ⟨.DEAD_END, [(parseUid u).2], none,
    "Node " ++ (parseUid u).1 ++ "." ++ (parseUid u).2 ++
      " is a dead end (no choices and not an ending)."⟩

/-- The issue pushed for one inescapable loop component. -/
def mkLoopIssue (scc : List String) : AnalysisIssue :=
  ⟨.INESCAPABLE_LOOP, scc.map (fun u => (parseUid u).2), some (scc.map (fun u => (parseUid u).2)),
    "Inescapable loop detected involving nodes: " ++
      String.intercalate ", " (scc.map (fun u => (parseUid u).1 ++ "." ++ (parseUid u).2))⟩

/-- Tarjan state: the discovery counter, the indices and lowLink maps,
the stack with its membership set, and the output component list. -/
structure TarjanState where
  index : Nat
  indices : List (String × Nat)
  lowLink : List (String × Nat)
  stack : List String
  onStack : List String
  sccs : List (List String)

/-- The do-while pop of strongConnect: pop stack entries into the new
component until the root v itself has been popped. -/
def popUntil (v : String) : List String → List String × List String
  | [] => ([], [])
  | w :: rest =>
    if w = v then ([w], rest)
    else ((w :: (popUntil v rest).1), (popUntil v rest).2)

mutual

/-- The recursive strongConnect of analyzer.ts, with a fuel argument that
bounds the recursion depth (any fuel above the number of undiscovered
reachable nodes gives the exact source behavior). -/
def strongConnect (g : Graph) (vis : List String) :
    Nat → TarjanState → String → TarjanState
  | 0, σ, _ => σ
  | fuel + 1, σ, v =>
    let σ1 : TarjanState :=
      { index := σ.index + 1
        indices := insertS σ.indices v σ.index
        lowLink := insertS σ.lowLink v σ.index
        stack := v :: σ.stack
        onStack := addS σ.onStack v
        sccs := σ.sccs }
    let σ2 := scNeighbors g vis fuel σ1 v (adjOf g v)
    if lookupD σ2.lowLink v 0 = lookupD σ2.indices v 0 then
      { σ2 with
        stack := (popUntil v σ2.stack).2
        onStack := σ2.onStack.filter (fun x => decide (¬ x ∈ (popUntil v σ2.stack).1))
        sccs := σ2.sccs ++ [(popUntil v σ2.stack).1] }
    else σ2

/-- The neighbor loop of strongConnect: skip unvisited targets, recurse
into undiscovered ones and absorb their low link, and take the index of
targets still on the stack. -/
def scNeighbors (g : Graph) (vis : List String) :
    Nat → TarjanState → String → List String → TarjanState
  | _, σ, _, [] => σ
  | fuel, σ, v, w :: ws =>
    let σ3 : TarjanState :=
      if ¬ w ∈ vis then σ
      else if (lookupS σ.indices w).isSome then
        (if w ∈ σ.onStack then
          { σ with lowLink :=
              insertS σ.lowLink v (min (lookupD σ.lowLink v 0) (lookupD σ.indices w 0)) }
        else σ)
      else
        let σ2 := strongConnect g vis fuel σ w
        { σ2 with lowLink :=
            insertS σ2.lowLink v (min (lookupD σ2.lowLink v 0) (lookupD σ2.lowLink w 0)) }
    scNeighbors g vis fuel σ3 v ws

end

/-- The empty Tarjan state. -/
def tarjanInit : TarjanState := ⟨0, [], [], [], [], []⟩

/-- The driver loop over the reachable nodes: run strongConnect on every
node not yet discovered. -/
def tarjanRun (g : Graph) (vis : List String) : TarjanState :=
  vis.foldl (fun σ v =>
    if (lookupS σ.indices v).isSome then σ
    else strongConnect g vis (vis.length + 1) σ v) tarjanInit

/-- One driver iteration: skip discovered nodes, run strongConnect on the
rest (the foldl body of tarjanRun). -/
def tarjanStep (g : Graph) (vis : List String) (σ : TarjanState) (v : String) :
    TarjanState :=
  if (lookupS σ.indices v).isSome then σ
  else strongConnect g vis (vis.length + 1) σ v

/-- A component is a candidate loop: more than one member, or a single
member with a self edge. -/
def isCandidateLoop (g : Graph) (scc : List String) : Bool :=
  if scc.length > 1 then true
  else
    match scc with
    | [u] => decide (u ∈ adjOf g u)
    | _ => false

/-- Some member of the component carries an ending marker. -/
def sccHasEnding (g : Graph) (scc : List String) : Bool :=
  scc.any (fun u => decide (u ∈ g.terminalNodes))

/-- Some edge from a member of the component leaves the component. -/
def sccCanEscape (g : Graph) (scc : List String) : Bool :=
  scc.any (fun u => (adjOf g u).any (fun w => decide (¬ w ∈ scc)))

/-- The promotion filter of analyzeStory: candidate loop, no ending
member, no escaping edge. -/
def goodLoop (g : Graph) (scc : List String) : Bool :=
  isCandidateLoop g scc && !sccHasEnding g scc && !sccCanEscape g scc

/-- The entry key of a story whose entry knot resolved to k. -/
def entryUidOf {E : Type} (story : Story E) (k : Knot E) : String :=
  uId story.entryKnot k.entryNode

/-- The visited set of analyzeStory: BFS from the entry key when it is an
existing node, the empty set otherwise. -/
def visitedSet {E : Type} (story : Story E) (k : Knot E) : List String :=
  if entryUidOf story k ∈ (buildGraph story).allNodes then
    bfs (buildGraph story).adjacency (buildGraph story).allNodes
      [entryUidOf story k] [entryUidOf story k]
  else []

/-- The issue list of the entry existence check. -/
def entryIssues {E : Type} (story : Story E) (k : Knot E) : List AnalysisIssue :=
  if entryUidOf story k ∈ (buildGraph story).allNodes then []
  else [mkEntryMissingIssue (entryUidOf story k)]

/-- The unreachable node issues, one per node key outside the visited set. -/
def unreachableIssues {E : Type} (story : Story E) (k : Knot E) : List AnalysisIssue :=
  ((buildGraph story).allNodes.filter
    (fun u => decide (¬ u ∈ visitedSet story k))).map mkUnreachableIssue

/-- The dead end issues: visited, no outgoing edges, not terminal. -/
def deadEndIssues {E : Type} (story : Story E) (k : Knot E) : List AnalysisIssue :=
  ((buildGraph story).allNodes.filter (fun u =>
    decide (u ∈ visitedSet story k) && (adjOf (buildGraph story) u).isEmpty
      && decide (¬ u ∈ (buildGraph story).terminalNodes))).map mkDeadEndIssue

/-- The components of the Tarjan pass that pass the promotion filter. -/
def loopComponents {E : Type} (story : Story E) (k : Knot E) : List (List String) :=
  (tarjanRun (buildGraph story) (visitedSet story k)).sccs.filter (goodLoop (buildGraph story))

/-- The inescapable loop issues. -/
def loopIssues {E : Type} (story : Story E) (k : Knot E) : List AnalysisIssue :=
  (loopComponents story k).map mkLoopIssue

/-- The body of analyzeStory after the entry knot resolved to k: the four
issue groups in source order. -/
def analyzeStoryWith {E : Type} (story : Story E) (k : Knot E) : AnalysisResult :=
  ⟨entryIssues story k ++ unreachableIssues story k ++ deadEndIssues story k ++ loopIssues story k⟩

/-- analyzeStory: the entry uid reads story.knots[entryKnot].entryNode,
so a story whose entry knot is missing from the knot map makes the
analyzer throw a TypeError before any issue is produced (modelled as
none). -/
def analyzeStory {E : Type} (story : Story E) : Option AnalysisResult :=
  (lookupS story.knots story.entryKnot).map (analyzeStoryWith story)

/-! Reachability notions for the specification side. -/

/-- One traversable edge of the analyzer over node keys: w is an
adjacency target of u and w is a visited (hence existing) node, exactly
the edges the Tarjan pass follows. -/
def estep (g : Graph) (vis : List String) (u w : String) : Prop :=
  w ∈ adjOf g u ∧ w ∈ vis

/-- Reachability along traversable edges. -/
def reaches (g : Graph) (vis : List String) : String → String → Prop :=
  Relation.ReflTransGen (estep g vis)

/-- Mutual reachability. -/
def conn (g : Graph) (vis : List String) (u w : String) : Prop :=
  reaches g vis u w ∧ reaches g vis w u

/-- S is a strongly connected component of the subgraph induced on the
visited set: the mutual reachability class of one of its members. -/
def isSCC (g : Graph) (vis : List String) (S : Finset String) : Prop :=
  ∃ u, u ∈ vis ∧ ∀ w, w ∈ S ↔ conn g vis u w

/-- Set level candidate loop: more than one member, or a single member
with a self edge. -/
def candidateSet (g : Graph) (S : Finset String) : Prop :=
  1 < S.card ∨ ∃ u, S = {u} ∧ u ∈ adjOf g u

/-- Set level absence of terminal members. -/
def terminalFreeSet (g : Graph) (S : Finset String) : Prop :=
  ∀ u ∈ S, ¬ u ∈ g.terminalNodes

/-- Set level closure: no edge from a member targets a key outside S. -/
def closedSet (g : Graph) (S : Finset String) : Prop :=
  ∀ u ∈ S, ∀ w ∈ adjOf g u, w ∈ S

/-! State predicates and invariants for the verification of the Tarjan
pass. -/

/-- A node is discovered when its index is recorded. -/
def discovered (σ : TarjanState) (x : String) : Prop := (lookupS σ.indices x).isSome

/-- The recorded discovery index (0 when absent; never read absent under
the invariants). -/
def idxOf (σ : TarjanState) (x : String) : Nat := lookupD σ.indices x 0

/-- The recorded low link (0 when absent). -/
def lowOf (σ : TarjanState) (x : String) : Nat := lookupD σ.lowLink x 0

/-- A node is completed when it belongs to an output component. -/
def inScc (σ : TarjanState) (x : String) : Prop := x ∈ σ.sccs.join

/-- The number of reachable list entries still undiscovered. -/
def undisc (vis : List String) (σ : TarjanState) : Nat :=
  (vis.filter (fun v => (lookupS σ.indices v).isNone)).length

/-- The core invariant of the Tarjan state, relative to the ghost list p
of gray nodes (the current recursion path, most recent first). -/
structure TarjanInvCore (g : Graph) (vis : List String) (p : List String)
    (σ : TarjanState) : Prop where
  stack_nodup : σ.stack.Nodup
  stack_vis : ∀ x ∈ σ.stack, x ∈ vis
  onStack_iff : ∀ x, x ∈ σ.onStack ↔ x ∈ σ.stack
  stack_dsc : ∀ x ∈ σ.stack, discovered σ x
  dsc_split : ∀ x, discovered σ x → x ∈ σ.stack ∨ inScc σ x
  not_both : ∀ x ∈ σ.stack, ¬ inScc σ x
  dsc_vis : ∀ x, discovered σ x → x ∈ vis
  inScc_dsc : ∀ x, inScc σ x → discovered σ x
  low_dom : ∀ x, discovered σ x ↔ (lookupS σ.lowLink x).isSome
  idx_lt : ∀ x, discovered σ x → idxOf σ x < σ.index
  idx_inj : ∀ x y, discovered σ x → discovered σ y → idxOf σ x = idxOf σ y → x = y
  stack_sorted : σ.stack.Pairwise (fun a b => idxOf σ b < idxOf σ a)
  gray_sublist : p.Sublist σ.stack
  reach_up : ∀ x ∈ σ.stack, ∀ y ∈ σ.stack, idxOf σ x ≤ idxOf σ y → reaches g vis x y
  gray_return : ∀ x ∈ σ.stack, ∃ γ, γ ∈ p ∧ idxOf σ γ ≤ idxOf σ x ∧ reaches g vis x γ
  low_le : ∀ x, discovered σ x → ¬ inScc σ x → lowOf σ x ≤ idxOf σ x
  low_real : ∀ x, discovered σ x → ¬ inScc σ x →
    ∃ y, y ∈ σ.stack ∧ idxOf σ y = lowOf σ x ∧ reaches g vis x y
  black_explored : ∀ x, discovered σ x → ¬ x ∈ p → ∀ w, estep g vis x w → discovered σ w
  black_low_edge : ∀ x ∈ σ.stack, ¬ x ∈ p → ∀ w, estep g vis x w → w ∈ σ.stack →
    lowOf σ x ≤ idxOf σ w
  sccs_classes : ∀ C ∈ σ.sccs, C ≠ [] ∧ ∀ u ∈ C, ∀ w, (conn g vis u w ↔ w ∈ C)
  sccs_join_nodup : σ.sccs.join.Nodup

/-- The full invariant: the core plus the low link absorption property,
which states that the low link of the nearest gray node below any black
stack node already accounts for that black node's low link. -/
structure TarjanInv (g : Graph) (vis : List String) (p : List String)
    (σ : TarjanState) extends TarjanInvCore g vis p σ : Prop where
  black_low_gray : ∀ x ∈ σ.stack, ¬ x ∈ p → ∀ γ ∈ p, idxOf σ γ < idxOf σ x →
    (∀ γ2 ∈ p, idxOf σ γ2 < idxOf σ x → idxOf σ γ2 ≤ idxOf σ γ) → lowOf σ γ ≤ lowOf σ x

/-- All edge targets of v currently on the stack bound the low link of v. -/
def edgeLows (g : Graph) (σ : TarjanState) (v : String) (targets : List String) : Prop :=
  ∀ w ∈ targets, w ∈ σ.stack → lowOf σ v ≤ idxOf σ w

/-- All visited edge targets in the list are discovered. -/
def edgeDsc (vis : List String) (σ : TarjanState) (targets : List String) : Prop :=
  ∀ w ∈ targets, w ∈ vis → discovered σ w

/-- The postcondition of one strongConnect call on an undiscovered v in
gray context p. -/
structure SCPost (g : Graph) (vis : List String) (p : List String)
    (σ σ2 : TarjanState) (v : String) : Prop where
  core : TarjanInvCore g vis p σ2
  old_black_low_gray : ∀ x ∈ σ2.stack, ¬ x ∈ p → x ∈ σ.stack → ∀ γ ∈ p,
    idxOf σ2 γ < idxOf σ2 x →
    (∀ γ2 ∈ p, idxOf σ2 γ2 < idxOf σ2 x → idxOf σ2 γ2 ≤ idxOf σ2 γ) →
    lowOf σ2 γ ≤ lowOf σ2 x
  new_low_ge : ∀ x ∈ σ2.stack, ¬ discovered σ x → lowOf σ2 v ≤ lowOf σ2 x
  dsc_mono : ∀ x, discovered σ x → discovered σ2 x
  idx_pres : ∀ x, discovered σ x → idxOf σ2 x = idxOf σ x
  low_pres : ∀ x, discovered σ x → lowOf σ2 x = lowOf σ x
  inScc_mono : ∀ x, inScc σ x → inScc σ2 x
  index_gt : σ.index < σ2.index
  dsc_v : discovered σ2 v
  idx_v : idxOf σ2 v = σ.index
  new_idx_ge : ∀ x, ¬ discovered σ x → discovered σ2 x → σ.index ≤ idxOf σ2 x
  stack_suffix : ∃ Δ, σ2.stack = Δ ++ σ.stack ∧ ∀ x ∈ Δ, ¬ discovered σ x
  sccs_suffix : ∃ N, σ2.sccs = σ.sccs ++ N ∧ ∀ C ∈ N, ∀ x ∈ C, ¬ discovered σ x
  reach_new : ∀ x, ¬ discovered σ x → discovered σ2 x → reaches g vis v x
  undisc_lt : undisc vis σ2 < undisc vis σ
  pop_cases : (lowOf σ2 v = idxOf σ2 v ∧ σ2.stack = σ.stack ∧ inScc σ2 v ∧
      (∀ x, ¬ discovered σ x → discovered σ2 x → inScc σ2 x)) ∨
    (lowOf σ2 v < idxOf σ2 v ∧ v ∈ σ2.stack ∧ ¬ inScc σ2 v)

/-- The state evolution facts of one segment of the neighbor loop of v:
everything the loop preserves or grows, without the invariant itself. -/
structure NSStep (g : Graph) (vis : List String) (σ σ2 : TarjanState)
    (v : String) : Prop where
  dsc_mono : ∀ x, discovered σ x → discovered σ2 x
  idx_pres : ∀ x, discovered σ x → idxOf σ2 x = idxOf σ x
  low_pres : ∀ x, discovered σ x → x ≠ v → lowOf σ2 x = lowOf σ x
  low_v_le : lowOf σ2 v ≤ lowOf σ v
  inScc_mono : ∀ x, inScc σ x → inScc σ2 x
  index_mono : σ.index ≤ σ2.index
  stack_suffix : ∃ Δ, σ2.stack = Δ ++ σ.stack ∧ ∀ x ∈ Δ, ¬ discovered σ x
  sccs_suffix : ∃ N, σ2.sccs = σ.sccs ++ N ∧ ∀ C ∈ N, ∀ x ∈ C, ¬ discovered σ x
  reach_new : ∀ x, ¬ discovered σ x → discovered σ2 x → reaches g vis v x
  undisc_le : undisc vis σ2 ≤ undisc vis σ
  new_low_ge : ∀ x ∈ σ2.stack, ¬ discovered σ x → lowOf σ2 v ≤ lowOf σ2 x
  new_idx_ge : ∀ x, ¬ discovered σ x → discovered σ2 x → σ.index ≤ idxOf σ2 x

/-- The postcondition of the neighbor loop of v over the suffix ws of its
adjacency list, in gray context v :: p. -/
structure NSPost (g : Graph) (vis : List String) (p : List String)
    (σ σ2 : TarjanState) (v : String) extends NSStep g vis σ σ2 v : Prop where
  inv : TarjanInv g vis (v :: p) σ2

/-- A string is colon free when its character data avoids the separator
that uId uses. -/
def colonFree (s : String) : Prop := ¬ (':' : Char) ∈ s.data

/-! Concrete stories used by witnesses and counterexamples, following the
fixtures of the reference test suite. -/

/-- Shorthand for a plain test node. -/
def exNode (id : String) (choices : List (Choice Nat)) (ending : Bool) : Node Nat :=
  ⟨id, none, none, some choices, none, if ending then some ⟨"end", none⟩ else none⟩

/-- Shorthand for a plain test choice targeting the current knot. -/
def exChoice (id tgt : String) : Choice Nat :=
  ⟨id, id, ⟨none, tgt⟩, none, none⟩

/-- Empty runtime options. -/
def rtOpts : RuntimeOptions Unit := ⟨[], none⟩

/-- The runtime walk story of the reference tests: start, look (choice
and node effects), and a terminal hallway entry. -/
def walkStory : Story Nat :=
  ⟨1, "intro",
    [("intro", ⟨"intro", "start",
      [("start", ⟨"start", some (.single "You wake up."), none,
          some [⟨"look", "Look around", ⟨none, "look"⟩, some 1, none⟩], none, none⟩),
       ("look", ⟨"look", some (.single "You see a door."), none,
          some [⟨"open", "Open door", ⟨some "hallway", "entry"⟩, none, none⟩], some 1, none⟩)]⟩),
     ("hallway", ⟨"hallway", "entry",
      [("entry", ⟨"entry", some (.single "It is dark."), none, none, none, some ⟨"end", none⟩⟩)]⟩)]⟩

/-- The walk story runtime at its entry position. -/
def walkRt : StoryRuntime Nat Unit := ⟨walkStory, rtOpts, "intro", "start"⟩

/-- A story whose second node has a hook gated choice; with no registered
hooks the gate cannot resolve. -/
def condStory : Story Nat :=
  ⟨1, "k", [("k", ⟨"k", "a",
    [("a", exNode "a" [exChoice "c1" "b"] false),
     ("b", ⟨"b", none, none, some [⟨"gated", "Gated", ⟨none, "a"⟩, none,
        some (.hook "h")⟩], none, none⟩)]⟩)]⟩

/-- The conditional story runtime at node a. -/
def condRt : StoryRuntime Nat Unit := ⟨condStory, rtOpts, "k", "a"⟩

/-- The conditional story runtime at node b, whose only choice is hook
gated. -/
def condRtB : StoryRuntime Nat Unit := ⟨condStory, rtOpts, "k", "b"⟩

/-- A story whose entry knot exists but whose entry node id x names no
node of that knot. -/
def danglingStory : Story Nat := ⟨1, "a", [("a", ⟨"a", "x", []⟩)]⟩

/-- A story whose entry knot id is missing from the knot map. -/
def noEntryStory : Story Nat := ⟨1, "missing", []⟩

/-- A story whose entry knot exists but whose entry node is missing, so
the entry key is absent from allNodes. -/
def noEntryNodeStory : Story Nat :=
  ⟨1, "intro", [("intro", ⟨"intro", "ghost", [("start", exNode "start" [] true)]⟩)]⟩

/-- The dead end fixture: start leads to dead, which has no choices and
no ending. -/
def deadEndStory : Story Nat :=
  ⟨1, "intro", [("intro", ⟨"intro", "start",
    [("start", exNode "start" [exChoice "go" "dead"] false),
     ("dead", exNode "dead" [] false)]⟩)]⟩

/-- The unreachable fixture: a terminal start and an isolated hidden. -/
def unreachableStory : Story Nat :=
  ⟨1, "intro", [("intro", ⟨"intro", "start",
    [("start", exNode "start" [] true),
     ("hidden", exNode "hidden" [] false)]⟩)]⟩

/-- The inescapable loop fixture: a and b point at each other, neither
is terminal. -/
def loopStory : Story Nat :=
  ⟨1, "intro", [("intro", ⟨"intro", "a",
    [("a", exNode "a" [exChoice "to-b" "b"] false),
     ("b", exNode "b" [exChoice "to-a" "a"] false)]⟩)]⟩

/-- The escapable loop fixture: a and b form a cycle but b can leave to a
terminal end node. -/
def escapeStory : Story Nat :=
  ⟨1, "intro", [("intro", ⟨"intro", "a",
    [("a", exNode "a" [exChoice "to-b" "b"] false),
     ("b", exNode "b" [exChoice "to-a" "a", exChoice "out" "end"] false),
     ("end", exNode "end" [] true)]⟩)]⟩

/-- The single knot of the loop fixture. -/
def loopStoryKnot : Knot Nat :=
  ⟨"intro", "a",
    [("a", exNode "a" [exChoice "to-b" "b"] false),
     ("b", exNode "b" [exChoice "to-a" "a"] false)]⟩

/-- The step result produced by choosing look on the walk story. -/
def walkLookResult : StepResult Nat :=
  ⟨"look", "intro", ["You see a door."], [], none, [("open", "Open door")], [1, 1]⟩

/-- The walk story runtime after choosing look. -/
def walkRtAtLook : StoryRuntime Nat Unit := ⟨walkStory, rtOpts, "intro", "look"⟩

/-- The start node of the walk story. -/
def walkStartNode : Node Nat :=
  ⟨"start", some (.single "You wake up."), none,
    some [⟨"look", "Look around", ⟨none, "look"⟩, some 1, none⟩], none, none⟩

/-! Theorems. -/

/-- Helper: bind on a successful Except value. -/
theorem exc_bind_ok {ε α β : Type} (a : α) (f : α → Except ε β) :
    (Except.ok a >>= f) = f a := rfl

/-- Helper: bind on a failed Except value. -/
theorem exc_bind_error {ε α β : Type} (e : ε) (f : α → Except ε β) :
    ((Except.error e : Except ε α) >>= f) = .error e := rfl

/-- Helper: pure of the Except monad is ok. -/
theorem exc_pure_eq_ok {ε α : Type} (a : α) : (pure a : Except ε α) = .ok a := rfl

/-- Helper: getNode succeeds exactly when knot and node both resolve. -/
theorem getNode_ok_iff {E : Type} (story : Story E) (knotId nodeId : String) (node : Node E) :
    getNode story knotId nodeId = .ok node ↔
      ∃ knot, lookupS story.knots knotId = some knot ∧
        lookupS knot.nodes nodeId = some node := by
  unfold getNode
  cases hk : lookupS story.knots knotId with
  | none => simp
  | some knot =>
    cases hm : lookupS knot.nodes nodeId with
    | none => simp [hm]
    | some n2 => simp [hm]

/-- Helper: operational characterization of buildStepResult by the
outcomes of its node lookup and its condition filter. -/
theorem buildStepResult_spec {E S : Type} (story : Story E) (options : RuntimeOptions S)
    (knotId nodeId : String) (state : S) (extra : List E) :
    (∀ e, getNode story knotId nodeId = .error e →
      buildStepResult story options knotId nodeId state extra = .error e) ∧
    (∀ node, getNode story knotId nodeId = .ok node →
      (∀ e, filterE (fun c => evaluateCondition options c.condition state)
          (node.choices.getD []) = .error e →
        buildStepResult story options knotId nodeId state extra = .error e) ∧
      (∀ kept, filterE (fun c => evaluateCondition options c.condition state)
          (node.choices.getD []) = .ok kept →
        buildStepResult story options knotId nodeId state extra = .ok
          ⟨nodeId, knotId, textToList node.text, node.tags.getD [], node.ending,
            kept.map (fun c => (c.id, c.label)), extra ++ optList node.effect⟩)) := by
  refine ⟨?_, ?_⟩
  · intro e h
    unfold buildStepResult
    rw [h, exc_bind_error]
  · intro node h
    constructor
    · intro e hf
      unfold buildStepResult
      rw [h, exc_bind_ok, hf, exc_bind_error]
    · intro kept hf
      unfold buildStepResult
      rw [h, exc_bind_ok, hf, exc_bind_ok, exc_pure_eq_ok]

/-- Helper: a filter whose callback throws on some member throws, and the
error it reports is the error of one of the members. -/
theorem filterE_error_of_mem {α : Type} (p : α → Except String Bool) (l : List α)
    (c : α) (e : String) (hc : c ∈ l) (he : p c = .error e) :
    ∃ e2 c2, filterE p l = .error e2 ∧ c2 ∈ l ∧ p c2 = .error e2 := by
  induction l with
  | nil => cases hc
  | cons a t ih =>
    cases hpa : p a with
    | error ea =>
      refine ⟨ea, a, ?_, List.mem_cons_self a t, hpa⟩
      simp only [filterE, hpa]
      rfl
    | ok b =>
      rcases List.mem_cons.mp hc with h | h
      · subst h; rw [hpa] at he; cases he
      · obtain ⟨e2, c2, hf, hm, hp2⟩ := ih h
        refine ⟨e2, c2, ?_, List.mem_cons_of_mem a hm, hp2⟩
        simp only [filterE, hpa, hf]
        rfl

/-- C3 counterexample: danglingStory has an existing entry knot a whose
entry node x does not exist, yet createRuntime succeeds and leaves the
position at the nonexistent node, refuting the claim that construction
fails fatally whenever the entry node is missing. -/
theorem c3_counterexample :
    createRuntime danglingStory rtOpts = .ok ⟨danglingStory, rtOpts, "a", "x"⟩ ∧
    getNode danglingStory "a" "x" = .error "Node \"x\" in knot \"a\" not found." :=
  ⟨rfl, rfl⟩

/-- C3 amended: createRuntime fails fatally exactly when the entry knot
is missing from the knot map; when the entry knot exists, construction
succeeds with Position set to (entryKnot, entryNode of that knot), even
when that entry node does not exist in the knot. -/
theorem c3_createRuntime_checks_only_entry_knot {E S : Type} (story : Story E)
    (options : RuntimeOptions S) :
    (lookupS story.knots story.entryKnot = none →
      createRuntime story options = .error "TypeError: cannot read entryNode of undefined") ∧
    (∀ k, lookupS story.knots story.entryKnot = some k →
      createRuntime story options = .ok ⟨story, options, story.entryKnot, k.entryNode⟩) := by
  constructor
  · intro h; unfold createRuntime; rw [h]
  · intro k h; unfold createRuntime; rw [h]

/-- C3 witness: the two construction outcomes at concrete stories. -/
theorem c3_witness :
    createRuntime danglingStory rtOpts = .ok ⟨danglingStory, rtOpts, "a", "x"⟩ ∧
    createRuntime noEntryStory rtOpts = .error "TypeError: cannot read entryNode of undefined" :=
  ⟨(c3_createRuntime_checks_only_entry_knot danglingStory rtOpts).2 ⟨"a", "x", []⟩ rfl,
   (c3_createRuntime_checks_only_entry_knot noEntryStory rtOpts).1 rfl⟩

/-- C6: a successful choose returns effects that are exactly the chosen
choice effect (when defined) followed by the arriving node effect (when
defined), in that order, hence at most two effects. -/
theorem c6_choose_effect_order {E S : Type} (rt : StoryRuntime E S) (choiceId : String)
    (state : S) (res : StepResult E) (rt2 : StoryRuntime E S)
    (h : choose rt choiceId state = (.ok res, rt2)) :
    ∃ node choice tnode,
      getNode rt.story rt.currentKnotId rt.currentNodeId = .ok node ∧
      (node.choices.getD []).find? (fun c => c.id == choiceId) = some choice ∧
      getNode rt.story (jsOrKnot choice.target.knot rt.currentKnotId) choice.target.node
        = .ok tnode ∧
      res.effects = optList choice.effect ++ optList tnode.effect ∧
      res.effects.length ≤ 2 := by
  unfold choose at h
  split at h
  · simp at h
  · split at h
    · simp at h
    · split at h
      · simp at h
      · simp at h
      · split at h
        · simp at h
        · rename_i x1 node h1 x2 choice h2 x3 h3 x4 tn h4
          simp only [Prod.mk.injEq] at h
          obtain ⟨hb, _⟩ := h
          refine ⟨node, choice, tn, h1, h2, h4, ?_⟩
          cases h5 : filterE (fun c => evaluateCondition rt.options c.condition state)
              (tn.choices.getD []) with
          | error e =>
            rw [((buildStepResult_spec rt.story rt.options
              (jsOrKnot choice.target.knot rt.currentKnotId) choice.target.node state
              (optList choice.effect)).2 tn h4).1 e h5] at hb
            cases hb
          | ok kept =>
            rw [((buildStepResult_spec rt.story rt.options
              (jsOrKnot choice.target.knot rt.currentKnotId) choice.target.node state
              (optList choice.effect)).2 tn h4).2 kept h5] at hb
            injection hb with hb2
            subst hb2
            constructor
            · rfl
            · cases choice.effect <;> cases tn.effect <;> simp [optList]

/-- C6 witness: choosing look on the walk story yields the choice effect
followed by the node effect. -/
theorem c6_witness :
    choose walkRt "look" () = (.ok walkLookResult, walkRtAtLook) ∧
    walkLookResult.effects.length ≤ 2 ∧
    walkLookResult.effects = optList (some 1) ++ optList (some 1) := by
  refine ⟨rfl, ?_, rfl⟩
  obtain ⟨_, _, _, _, _, _, _, hlen⟩ :=
    c6_choose_effect_order walkRt "look" () walkLookResult walkRtAtLook rfl
  exact hlen

/-- C7 counterexample: construction from danglingStory succeeds although
the resulting Position references no existing node, refuting the claim
that the Position always references an existing node once constructed. -/
theorem c7_counterexample :
    createRuntime danglingStory rtOpts = .ok ⟨danglingStory, rtOpts, "a", "x"⟩ ∧
    ¬ positionValid (⟨danglingStory, rtOpts, "a", "x"⟩ : StoryRuntime Nat Unit) := by
  refine ⟨rfl, ?_⟩
  rintro ⟨node, hn⟩
  simp [getNode, danglingStory, lookupS] at hn

/-- C7 amended: choose and divert always leave the Position valid when it
was valid before the call (whether or not they raise), and the Position
created by construction is valid exactly when the entry knot has an
existing entry node; construction itself validates only the entry knot. -/
theorem c7_position_never_dangling {E S : Type} (story : Story E) (options : RuntimeOptions S)
    (rt : StoryRuntime E S) :
    (positionValid rt → ∀ choiceId state, positionValid (choose rt choiceId state).2) ∧
    (positionValid rt → ∀ tgt state, positionValid (divert rt tgt state).2) ∧
    (createRuntime story options = .ok rt →
      (positionValid rt ↔ ∃ k node, lookupS story.knots story.entryKnot = some k ∧
        rt.currentKnotId = story.entryKnot ∧ rt.currentNodeId = k.entryNode ∧
        lookupS k.nodes k.entryNode = some node)) := by
  refine ⟨?_, ?_, ?_⟩
  · intro hv choiceId state
    unfold choose
    split
    · exact hv
    · split
      · exact hv
      · split
        · exact hv
        · exact hv
        · split
          · exact hv
          · rename_i tnode h4
            exact ⟨tnode, h4⟩
  · intro hv tgt state
    unfold divert
    split
    · exact hv
    · rename_i tnode h4
      exact ⟨tnode, h4⟩
  · intro h
    unfold createRuntime at h
    cases hk : lookupS story.knots story.entryKnot with
    | none => rw [hk] at h; cases h
    | some k =>
      rw [hk] at h
      injection h with h2
      subst h2
      show (∃ node, getNode story story.entryKnot k.entryNode = .ok node) ↔ _
      constructor
      · rintro ⟨node, hn⟩
        rw [getNode_ok_iff] at hn
        obtain ⟨knot, hk2, hm⟩ := hn
        rw [hk] at hk2
        injection hk2 with hk3
        subst hk3
        exact ⟨k, node, rfl, rfl, rfl, hm⟩
      · rintro ⟨k2, node, hk2, _, _, hm⟩
        injection hk2 with hk3
        exact ⟨node, (getNode_ok_iff story story.entryKnot k.entryNode node).mpr
          ⟨k, hk, by rw [hk3]; exact hm⟩⟩

/-- C7 witness: a valid initial position that stays valid across one
choose and one divert. -/
theorem c7_witness :
    positionValid walkRt ∧
    positionValid (choose walkRt "look" ()).2 ∧
    positionValid (divert walkRt ⟨some "hallway", "entry"⟩ ()).2 := by
  have hv : positionValid walkRt := ⟨walkStartNode, rfl⟩
  exact ⟨hv,
    (c7_position_never_dangling walkStory rtOpts walkRt).1 hv "look" (),
    (c7_position_never_dangling walkStory rtOpts walkRt).2.1 hv ⟨some "hallway", "entry"⟩ ()⟩

/-- C8: a hook condition whose hook is unregistered and an expression
condition without an evaluator both fail with a descriptive error naming
the missing resolver, and the failure surfaces through the choice
filtering of current as well as through choose. -/
theorem c8_missing_resolver_fails_fast {E S : Type} (rt : StoryRuntime E S) (state : S)
    (name expr : String) (node : Node E) (choice : Choice E) (choiceId : String) (e : String) :
    (lookupS rt.options.conditionHooks name = none →
      evaluateCondition rt.options (some (.hook name)) state =
        .error ("Condition hook \"" ++ name ++
          "\" not found. Register it via RuntimeOptions.conditionHooks.")) ∧
    (rt.options.expressionEvaluator = none →
      evaluateCondition rt.options (some (.expression expr)) state =
        .error ("Expression evaluator not provided for expr: \"" ++ expr ++
          "\". Register it via RuntimeOptions.expressionEvaluator.")) ∧
    (getNode rt.story rt.currentKnotId rt.currentNodeId = .ok node →
      choice ∈ node.choices.getD [] →
      evaluateCondition rt.options choice.condition state = .error e →
      ∃ e2 c2, current rt state = .error e2 ∧ c2 ∈ node.choices.getD [] ∧
        evaluateCondition rt.options c2.condition state = .error e2) ∧
    ((node.choices.getD []).find? (fun c => c.id == choiceId) = some choice →
      getNode rt.story rt.currentKnotId rt.currentNodeId = .ok node →
      evaluateCondition rt.options choice.condition state = .error e →
      choose rt choiceId state = (.error e, rt)) := by
  refine ⟨?_, ?_, ?_, ?_⟩
  · intro h; unfold evaluateCondition; simp only [h]
  · intro h; unfold evaluateCondition; simp only [h]
  · intro h1 h2 h3
    obtain ⟨e2, c2, hf, hm, hp2⟩ :=
      filterE_error_of_mem (fun c => evaluateCondition rt.options c.condition state)
        (node.choices.getD []) choice e h2 h3
    refine ⟨e2, c2, ?_, hm, hp2⟩
    unfold current
    exact ((buildStepResult_spec rt.story rt.options rt.currentKnotId rt.currentNodeId
      state []).2 node h1).1 e2 hf
  · intro h2 h1 h3
    unfold choose
    simp only [h1, h2, h3]

/-- C8 witness: the exact errors at concrete conditions, and their
propagation through current and choose on condStory at node b. -/
theorem c8_witness :
    evaluateCondition rtOpts (some (.hook "h")) () =
      .error "Condition hook \"h\" not found. Register it via RuntimeOptions.conditionHooks." ∧
    evaluateCondition rtOpts (some (.expression "level >= 5")) () =
      .error "Expression evaluator not provided for expr: \"level >= 5\". Register it via RuntimeOptions.expressionEvaluator." ∧
    choose condRtB "gated" () =
      (.error "Condition hook \"h\" not found. Register it via RuntimeOptions.conditionHooks.",
        condRtB) := by
  refine ⟨?_, ?_, ?_⟩
  · exact (c8_missing_resolver_fails_fast condRtB () "h" "level >= 5"
      (exNode "a" [] false) (exChoice "x" "y") "gated" "e").1 rfl
  · exact (c8_missing_resolver_fails_fast condRtB () "h" "level >= 5"
      (exNode "a" [] false) (exChoice "x" "y") "gated" "e").2.1 rfl
  · exact (c8_missing_resolver_fails_fast condRtB () "h" "level >= 5"
      (⟨"b", none, none, some [⟨"gated", "Gated", ⟨none, "a"⟩, none, some (.hook "h")⟩],
        none, none⟩ : Node Nat)
      ⟨"gated", "Gated", ⟨none, "a"⟩, none, some (.hook "h")⟩ "gated"
      "Condition hook \"h\" not found. Register it via RuntimeOptions.conditionHooks.").2.2.2
      rfl rfl rfl

/-- C10 counterexample: on condStory, choosing c1 from a raises (the hook
of the arrival node choice is unregistered) yet the position observed
afterwards is b, not the a it started from, refuting atomicity of choose
on failure. -/
theorem c10_counterexample :
    (choose condRt "c1" ()).1 =
      .error "Condition hook \"h\" not found. Register it via RuntimeOptions.conditionHooks." ∧
    (choose condRt "c1" ()).2.currentNodeId = "b" ∧
    condRt.currentNodeId = "a" :=
  ⟨rfl, rfl, rfl⟩

/-- C10 amended: choose and divert leave the Position unchanged when they
raise before the transition (current node missing, choice id not found,
chosen condition failing or unresolvable, target node missing); once the
target is validated the Position moves to it, and any error raised while
building the StepResult at the target propagates with the moved
Position. -/
theorem c10_failure_atomicity {E S : Type} (rt : StoryRuntime E S) (choiceId : String)
    (tgt : Target) (state : S) (node : Node E) (choice : Choice E) (tnode : Node E)
    (e : String) :
    (getNode rt.story rt.currentKnotId rt.currentNodeId = .error e →
      choose rt choiceId state = (.error e, rt)) ∧
    (getNode rt.story rt.currentKnotId rt.currentNodeId = .ok node →
      (node.choices.getD []).find? (fun c => c.id == choiceId) = none →
      choose rt choiceId state = (.error ("Choice \"" ++ choiceId ++
        "\" not found in node \"" ++ rt.currentNodeId ++ "\"."), rt)) ∧
    (getNode rt.story rt.currentKnotId rt.currentNodeId = .ok node →
      (node.choices.getD []).find? (fun c => c.id == choiceId) = some choice →
      evaluateCondition rt.options choice.condition state = .error e →
      choose rt choiceId state = (.error e, rt)) ∧
    (getNode rt.story rt.currentKnotId rt.currentNodeId = .ok node →
      (node.choices.getD []).find? (fun c => c.id == choiceId) = some choice →
      evaluateCondition rt.options choice.condition state = .ok false →
      choose rt choiceId state = (.error ("Choice \"" ++ choiceId ++
        "\" is not available due to condition."), rt)) ∧
    (getNode rt.story rt.currentKnotId rt.currentNodeId = .ok node →
      (node.choices.getD []).find? (fun c => c.id == choiceId) = some choice →
      evaluateCondition rt.options choice.condition state = .ok true →
      getNode rt.story (jsOrKnot choice.target.knot rt.currentKnotId) choice.target.node
        = .error e →
      choose rt choiceId state = (.error e, rt)) ∧
    (getNode rt.story rt.currentKnotId rt.currentNodeId = .ok node →
      (node.choices.getD []).find? (fun c => c.id == choiceId) = some choice →
      evaluateCondition rt.options choice.condition state = .ok true →
      getNode rt.story (jsOrKnot choice.target.knot rt.currentKnotId) choice.target.node
        = .ok tnode →
      choose rt choiceId state =
        (buildStepResult rt.story rt.options (jsOrKnot choice.target.knot rt.currentKnotId)
          choice.target.node state (optList choice.effect),
         { rt with currentKnotId := jsOrKnot choice.target.knot rt.currentKnotId,
                   currentNodeId := choice.target.node })) ∧
    (getNode rt.story (jsOrKnot tgt.knot rt.currentKnotId) tgt.node = .error e →
      divert rt tgt state = (.error e, rt)) ∧
    (getNode rt.story (jsOrKnot tgt.knot rt.currentKnotId) tgt.node = .ok tnode →
      divert rt tgt state =
        (buildStepResult rt.story rt.options (jsOrKnot tgt.knot rt.currentKnotId) tgt.node
          state [],
         { rt with currentKnotId := jsOrKnot tgt.knot rt.currentKnotId,
                   currentNodeId := tgt.node })) := by
  refine ⟨?_, ?_, ?_, ?_, ?_, ?_, ?_, ?_⟩
  · intro h1; unfold choose; simp only [h1]
  · intro h1 h2; unfold choose; simp only [h1, h2]
  · intro h1 h2 h3; unfold choose; simp only [h1, h2, h3]
  · intro h1 h2 h3; unfold choose; simp only [h1, h2, h3]
  · intro h1 h2 h3 h4; unfold choose; simp only [h1, h2, h3, h4]
  · intro h1 h2 h3 h4; unfold choose; simp only [h1, h2, h3, h4]
  · intro h4; unfold divert; simp only [h4]
  · intro h4; unfold divert; simp only [h4]

/-- Helper: appending a separated tail is injective on colon free data. -/
theorem append_sep_inj : ∀ (l1 l2 m1 m2 : List Char), ¬ (':' : Char) ∈ l1 →
    ¬ (':' : Char) ∈ l2 → l1 ++ ':' :: m1 = l2 ++ ':' :: m2 → l1 = l2 ∧ m1 = m2 := by
  intro l1
  induction l1 with
  | nil =>
    intro l2 m1 m2 _ h2 h
    cases l2 with
    | nil => simpa using h
    | cons b t2 =>
      simp only [List.nil_append, List.cons_append, List.cons.injEq] at h
      exact absurd (h.1 ▸ List.mem_cons_self b t2) h2
  | cons a t ih =>
    intro l2 m1 m2 h1 h2 h
    cases l2 with
    | nil =>
      simp only [List.nil_append, List.cons_append, List.cons.injEq] at h
      exact absurd (h.1 ▸ List.mem_cons_self a t) h1
    | cons b t2 =>
      simp only [List.cons_append, List.cons.injEq] at h
      obtain ⟨hab, ht⟩ := h
      have h1t : ¬ (':' : Char) ∈ t := fun hm => h1 (List.mem_cons_of_mem a hm)
      have h2t : ¬ (':' : Char) ∈ t2 := fun hm => h2 (List.mem_cons_of_mem b hm)
      obtain ⟨hte, hme⟩ := ih t2 m1 m2 h1t h2t ht
      exact ⟨by rw [hab, hte], hme⟩

/-- Helper: splitting a list without the separator yields the whole list. -/
theorem splitChar_not_mem (sep : Char) : ∀ (m : List Char), ¬ sep ∈ m →
    splitChar sep m = [m] := by
  intro m
  induction m with
  | nil => intro _; rfl
  | cons c t ih =>
    intro h
    have hc : ¬ c = sep := fun he => h (he ▸ List.mem_cons_self c t)
    have ht : ¬ sep ∈ t := fun hm => h (List.mem_cons_of_mem c hm)
    unfold splitChar
    rw [if_neg hc, ih ht]

/-- Helper: splitting at the first separator occurrence. -/
theorem splitChar_append (sep : Char) : ∀ (l m : List Char), ¬ sep ∈ l →
    splitChar sep (l ++ sep :: m) = l :: splitChar sep m := by
  intro l
  induction l with
  | nil =>
    intro m _
    rw [List.nil_append]
    rw [splitChar]
    rw [if_pos rfl]
  | cons c t ih =>
    intro m h
    have hc : ¬ c = sep := fun he => h (he ▸ List.mem_cons_self c t)
    have ht : ¬ sep ∈ t := fun hm => h (List.mem_cons_of_mem c hm)
    rw [List.cons_append]
    rw [splitChar]
    rw [if_neg hc, ih m ht]

/-- Helper: the data of a uId key is the knot data, a colon, the node
data. -/
theorem uId_data (k n : String) : (uId k n).data = k.data ++ ':' :: n.data := by
  unfold uId
  rw [String.data_append, String.data_append, List.append_assoc]
  rfl

/-- C9 counterexample: with identifiers that contain colons, two distinct
(knotId, nodeId) pairs share one key, and decoding loses the nodeId tail,
refuting uniqueness over all identifier strings. -/
theorem c9_counterexample :
    uId "a:b" "c" = uId "a" "b:c" ∧
    (("a:b", "c") : String × String) ≠ ("a", "b:c") ∧
    parseUid (uId "a" "b:c") ≠ ("a", "b:c") := by
  refine ⟨rfl, by decide, by decide⟩

/-- C9 amended: on colon free identifiers the key encoding is injective
and parseUid recovers exactly the pair it was built from. -/
theorem c9_uid_injective_on_colon_free (k1 n1 k2 n2 : String) :
    (colonFree k1 → colonFree k2 → uId k1 n1 = uId k2 n2 → k1 = k2 ∧ n1 = n2) ∧
    (colonFree k1 → colonFree n1 → parseUid (uId k1 n1) = (k1, n1)) := by
  constructor
  · intro h1 h2 h
    have hd : (uId k1 n1).data = (uId k2 n2).data := by rw [h]
    rw [uId_data, uId_data] at hd
    obtain ⟨hk, hn⟩ := append_sep_inj k1.data k2.data n1.data n2.data h1 h2 hd
    constructor
    · cases k1; cases k2; simp only at hk; rw [hk]
    · cases n1; cases n2; simp only at hn; rw [hn]
  · intro h1 h2
    unfold parseUid jsSplit
    have hd : (uId k1 n1).data = k1.data ++ ':' :: n1.data := uId_data k1 n1
    rw [hd, splitChar_append ':' k1.data n1.data h1, splitChar_not_mem ':' n1.data h2]
    rfl

/-- C9 witness: the amended encoding laws at concrete colon free ids. -/
theorem c9_witness :
    (uId "intro" "start" = uId "intro" "start" → ("intro" : String) = "intro" ∧
      ("start" : String) = "start") ∧
    parseUid (uId "intro" "start") = ("intro", "start") :=
  ⟨fun h => (c9_uid_injective_on_colon_free "intro" "start" "intro" "start").1
      (show colonFree "intro" by unfold colonFree; decide)
      (show colonFree "intro" by unfold colonFree; decide) h,
   (c9_uid_injective_on_colon_free "intro" "start" "intro" "start").2
      (show colonFree "intro" by unfold colonFree; decide)
      (show colonFree "start" by unfold colonFree; decide)⟩

/-- Helper: everything the inner BFS loop adds to the visited set is an
existing node or was already visited. -/
theorem bfsAddNexts_mem_left (allN : List String) : ∀ ns visited queue x,
    x ∈ (bfsAddNexts allN visited queue ns).1 → x ∈ visited ∨ x ∈ allN := by
  intro ns
  induction ns with
  | nil => intro visited queue x hx; exact Or.inl hx
  | cons w ws ih =>
    intro visited queue x hx
    by_cases hc : w ∈ allN ∧ ¬ w ∈ visited
    · rw [bfsAddNexts, if_pos hc] at hx
      rcases ih (visited ++ [w]) (queue ++ [w]) x hx with h | h
      · rcases List.mem_append.mp h with h2 | h2
        · exact Or.inl h2
        · simp only [List.mem_singleton] at h2
          exact Or.inr (h2 ▸ hc.1)
      · exact Or.inr h
    · rw [bfsAddNexts, if_neg hc] at hx
      exact ih visited queue x hx

/-- Helper: the fueled BFS visited set only grows into allNodes. -/
theorem bfsF_subset (adj : List (String × List String)) (allN : List String) :
    ∀ fuel visited queue, (∀ x ∈ visited, x ∈ allN) →
      ∀ x, x ∈ bfsF adj allN fuel visited queue → x ∈ allN := by
  intro fuel
  induction fuel with
  | zero => intro visited queue hsub x hx; exact hsub x hx
  | succ f ih =>
    intro visited queue hsub x hx
    cases queue with
    | nil => exact hsub x hx
    | cons curr rest =>
      rw [bfsF] at hx
      refine ih _ _ ?_ x hx
      intro y hy
      rcases bfsAddNexts_mem_left allN (lookupD adj curr []) visited rest y hy with h | h
      · exact hsub y h
      · exact h

/-- Helper: the BFS visited set only grows into the set of all nodes. -/
theorem bfs_subset (adj : List (String × List String)) (allN : List String) :
    ∀ visited queue, (∀ x ∈ visited, x ∈ allN) →
      ∀ x, x ∈ bfs adj allN visited queue → x ∈ allN := by
  intro visited queue hsub x hx
  exact bfsF_subset adj allN (bfsMeasure allN visited queue) visited queue hsub x hx

/-- Helper: the visited set of the analyzer is contained in allNodes. -/
theorem visitedSet_subset {E : Type} (story : Story E) (k : Knot E) :
    ∀ x ∈ visitedSet story k, x ∈ (buildGraph story).allNodes := by
  intro x hx
  unfold visitedSet at hx
  by_cases he : entryUidOf story k ∈ (buildGraph story).allNodes
  · rw [if_pos he] at hx
    refine bfs_subset (buildGraph story).adjacency (buildGraph story).allNodes
      [entryUidOf story k] [entryUidOf story k] ?_ x hx
    intro y hy
    simp only [List.mem_singleton] at hy
    exact hy ▸ he
  · rw [if_neg he] at hx
    cases hx

/-- Helper: the issue groups keep their codes. -/
theorem issue_group_codes {E : Type} (story : Story E) (k : Knot E) :
    (entryIssues story k).filter (fun i => i.code == IssueCode.UNREACHABLE)
      = entryIssues story k ∧
    ((unreachableIssues story k).filter (fun i => i.code == IssueCode.UNREACHABLE)
      = unreachableIssues story k) ∧
    ((deadEndIssues story k).filter (fun i => i.code == IssueCode.UNREACHABLE) = []) ∧
    ((loopIssues story k).filter (fun i => i.code == IssueCode.UNREACHABLE) = []) ∧
    ((entryIssues story k).filter (fun i => i.code == IssueCode.DEAD_END) = []) ∧
    ((unreachableIssues story k).filter (fun i => i.code == IssueCode.DEAD_END) = []) ∧
    ((deadEndIssues story k).filter (fun i => i.code == IssueCode.DEAD_END)
      = deadEndIssues story k) ∧
    ((loopIssues story k).filter (fun i => i.code == IssueCode.DEAD_END) = []) := by
  refine ⟨?_, ?_, ?_, ?_, ?_, ?_, ?_, ?_⟩
  · unfold entryIssues; split
    · rfl
    · rfl
  · refine List.filter_eq_self.mpr ?_
    intro a ha
    obtain ⟨u, _, rfl⟩ := List.mem_map.mp ha
    rfl
  · refine List.filter_eq_nil.mpr ?_
    intro a ha
    obtain ⟨u, _, rfl⟩ := List.mem_map.mp ha
    simp [mkDeadEndIssue]
  · refine List.filter_eq_nil.mpr ?_
    intro a ha
    obtain ⟨u, _, rfl⟩ := List.mem_map.mp ha
    simp [mkLoopIssue]
  · unfold entryIssues; split
    · rfl
    · rfl
  · refine List.filter_eq_nil.mpr ?_
    intro a ha
    obtain ⟨u, _, rfl⟩ := List.mem_map.mp ha
    simp [mkUnreachableIssue]
  · refine List.filter_eq_self.mpr ?_
    intro a ha
    obtain ⟨u, _, rfl⟩ := List.mem_map.mp ha
    rfl
  · refine List.filter_eq_nil.mpr ?_
    intro a ha
    obtain ⟨u, _, rfl⟩ := List.mem_map.mp ha
    simp [mkLoopIssue]

/-- C2 counterexample: a story whose entry knot id names no knot makes
analyzeStory throw the TypeError of the undefined property access, so no
issues list is returned although the entry key is certainly absent from
the (empty) set of all nodes. -/
theorem c2_counterexample : analyzeStory noEntryStory = none := rfl

/-- C2 amended: when the entry knot exists but the entry key is absent
from allNodes, analyzeStory does not fail: it reports the missing entry,
performs no traversal, and returns every node as unreachable; only a
missing entry knot makes the analyzer throw. -/
theorem c2_missing_entry_soft_report {E : Type} (story : Story E) (k : Knot E)
    (h1 : lookupS story.knots story.entryKnot = some k)
    (h2 : ¬ entryUidOf story k ∈ (buildGraph story).allNodes) :
    analyzeStory story = some (analyzeStoryWith story k) ∧
    visitedSet story k = [] ∧
    (analyzeStoryWith story k).issues =
      mkEntryMissingIssue (entryUidOf story k) ::
        ((buildGraph story).allNodes.map mkUnreachableIssue) := by
  have hv : visitedSet story k = [] := by unfold visitedSet; rw [if_neg h2]
  refine ⟨?_, hv, ?_⟩
  · unfold analyzeStory; rw [h1]; rfl
  · have e1 : entryIssues story k = [mkEntryMissingIssue (entryUidOf story k)] := by
      unfold entryIssues; rw [if_neg h2]
    have e2 : unreachableIssues story k = (buildGraph story).allNodes.map mkUnreachableIssue := by
      unfold unreachableIssues
      rw [hv]
      congr 1
      refine List.filter_eq_self.mpr ?_
      intro a _
      simp
    have e3 : deadEndIssues story k = [] := by
      unfold deadEndIssues
      rw [hv]
      have : (buildGraph story).allNodes.filter (fun u =>
          decide (u ∈ ([] : List String)) && (adjOf (buildGraph story) u).isEmpty
            && decide (¬ u ∈ (buildGraph story).terminalNodes)) = [] := by
        refine List.filter_eq_nil.mpr ?_
        intro a _
        simp
      rw [this]
      rfl
    have e4 : loopIssues story k = [] := by
      unfold loopIssues loopComponents
      rw [hv]
      rfl
    unfold analyzeStoryWith
    rw [e1, e2, e3, e4]
    simp

/-- C2 witness: the amended behavior at a concrete story whose entry
node ghost is missing from the entry knot. -/
theorem c2_witness :
    analyzeStory noEntryNodeStory =
      some (analyzeStoryWith noEntryNodeStory ⟨"intro", "ghost",
        [("start", exNode "start" [] true)]⟩) ∧
    visitedSet noEntryNodeStory ⟨"intro", "ghost", [("start", exNode "start" [] true)]⟩ = [] :=
  ⟨(c2_missing_entry_soft_report noEntryNodeStory
      ⟨"intro", "ghost", [("start", exNode "start" [] true)]⟩ rfl (by decide)).1,
   (c2_missing_entry_soft_report noEntryNodeStory
      ⟨"intro", "ghost", [("start", exNode "start" [] true)]⟩ rfl (by decide)).2.1⟩

/-- C4: the visited set stays inside allNodes, analysis completes once
the entry knot resolves (dangling edges never abort it), and the
UNREACHABLE issues of the result are exactly the optional missing entry
issue followed by one issue per node key outside the visited set. -/
theorem c4_unreachable_accounting {E : Type} (story : Story E) (k : Knot E)
    (h : lookupS story.knots story.entryKnot = some k) :
    analyzeStory story = some (analyzeStoryWith story k) ∧
    (∀ u ∈ visitedSet story k, u ∈ (buildGraph story).allNodes) ∧
    (analyzeStoryWith story k).issues.filter (fun i => i.code == IssueCode.UNREACHABLE) =
      (if entryUidOf story k ∈ (buildGraph story).allNodes then []
        else [mkEntryMissingIssue (entryUidOf story k)]) ++
      ((buildGraph story).allNodes.filter
        (fun u => decide (¬ u ∈ visitedSet story k))).map mkUnreachableIssue := by
  obtain ⟨g1, g2, g3, g4, _, _, _, _⟩ := issue_group_codes story k
  refine ⟨?_, visitedSet_subset story k, ?_⟩
  · unfold analyzeStory; rw [h]; rfl
  · show (entryIssues story k ++ unreachableIssues story k ++ deadEndIssues story k ++
      loopIssues story k).filter (fun i => i.code == IssueCode.UNREACHABLE) = _
    rw [List.filter_append, List.filter_append, List.filter_append, g1, g2, g3, g4]
    rw [List.append_nil, List.append_nil]
    rfl

/-- C4 witness: the accounting at the unreachable fixture story. -/
theorem c4_witness :
    analyzeStory unreachableStory =
      some (analyzeStoryWith unreachableStory ⟨"intro", "start",
        [("start", exNode "start" [] true), ("hidden", exNode "hidden" [] false)]⟩) ∧
    (analyzeStoryWith unreachableStory ⟨"intro", "start",
        [("start", exNode "start" [] true), ("hidden", exNode "hidden" [] false)]⟩).issues.filter
      (fun i => i.code == IssueCode.UNREACHABLE) = [mkUnreachableIssue "intro:hidden"] := by
  constructor
  · exact (c4_unreachable_accounting unreachableStory ⟨"intro", "start",
      [("start", exNode "start" [] true), ("hidden", exNode "hidden" [] false)]⟩ rfl).1
  · rw [(c4_unreachable_accounting unreachableStory ⟨"intro", "start",
      [("start", exNode "start" [] true), ("hidden", exNode "hidden" [] false)]⟩ rfl).2.2]
    rfl

/-- C5: the DEAD_END issues of the result are exactly one issue per node
key that is visited, has an empty outgoing edge list, and carries no
terminal marker; in particular every reported dead end node is
reachable. -/
theorem c5_dead_end_characterization {E : Type} (story : Story E) (k : Knot E)
    (h : lookupS story.knots story.entryKnot = some k) :
    analyzeStory story = some (analyzeStoryWith story k) ∧
    (analyzeStoryWith story k).issues.filter (fun i => i.code == IssueCode.DEAD_END) =
      ((buildGraph story).allNodes.filter (fun u =>
        decide (u ∈ visitedSet story k) && (adjOf (buildGraph story) u).isEmpty
          && decide (¬ u ∈ (buildGraph story).terminalNodes))).map mkDeadEndIssue ∧
    (∀ i ∈ (analyzeStoryWith story k).issues, i.code = IssueCode.DEAD_END →
      ∃ u, u ∈ visitedSet story k ∧ adjOf (buildGraph story) u = [] ∧
        ¬ u ∈ (buildGraph story).terminalNodes ∧ i = mkDeadEndIssue u) := by
  obtain ⟨_, _, _, _, g5, g6, g7, g8⟩ := issue_group_codes story k
  have hfilter : (analyzeStoryWith story k).issues.filter
      (fun i => i.code == IssueCode.DEAD_END) = deadEndIssues story k := by
    show (entryIssues story k ++ unreachableIssues story k ++ deadEndIssues story k ++
      loopIssues story k).filter (fun i => i.code == IssueCode.DEAD_END) = _
    rw [List.filter_append, List.filter_append, List.filter_append, g5, g6, g7, g8]
    simp
  refine ⟨?_, hfilter, ?_⟩
  · unfold analyzeStory; rw [h]; rfl
  · intro i hi hcode
    have hi2 : i ∈ (analyzeStoryWith story k).issues.filter
        (fun i => i.code == IssueCode.DEAD_END) := by
      refine List.mem_filter.mpr ⟨hi, ?_⟩
      rw [hcode]
      rfl
    rw [hfilter] at hi2
    unfold deadEndIssues at hi2
    obtain ⟨u, hu, rfl⟩ := List.mem_map.mp hi2
    obtain ⟨_, hcond⟩ := List.mem_filter.mp hu
    simp only [Bool.and_eq_true, decide_eq_true_eq, List.isEmpty_iff] at hcond
    exact ⟨u, hcond.1.1, hcond.1.2, hcond.2, rfl⟩

/-- C5 witness: the dead end fixture reports exactly its one dead end,
which is reachable. -/
theorem c5_witness :
    (analyzeStoryWith deadEndStory ⟨"intro", "start",
      [("start", exNode "start" [exChoice "go" "dead"] false),
       ("dead", exNode "dead" [] false)]⟩).issues.filter
      (fun i => i.code == IssueCode.DEAD_END) = [mkDeadEndIssue "intro:dead"] ∧
    "intro:dead" ∈ visitedSet deadEndStory ⟨"intro", "start",
      [("start", exNode "start" [exChoice "go" "dead"] false),
       ("dead", exNode "dead" [] false)]⟩ := by
  constructor
  · rw [(c5_dead_end_characterization deadEndStory ⟨"intro", "start",
      [("start", exNode "start" [exChoice "go" "dead"] false),
       ("dead", exNode "dead" [] false)]⟩ rfl).2.1]
    rfl
  · decide

/-! Basic lemmas about the association map and set operations. -/

/-- Helper: looking up the freshly inserted key. -/
theorem lookupS_insert_self {α : Type} (m : List (String × α)) (k : String) (v : α) :
    lookupS (insertS m k v) k = some v := by
  induction m with
  | nil => simp [insertS, lookupS]
  | cons a t ih =>
    by_cases h : a.1 = k
    · rw [show insertS (a :: t) k v = (k, v) :: t by rw [insertS, if_pos h]]
      simp [lookupS]
    · rw [show insertS (a :: t) k v = a :: insertS t k v by
        cases a; rw [insertS, if_neg h]]
      cases a with
      | mk a1 a2 =>
        rw [lookupS, if_neg (by simpa using h)]
        exact ih

/-- Helper: looking up another key after an insert. -/
theorem lookupS_insert_ne {α : Type} (m : List (String × α)) (k x : String) (v : α)
    (h : x ≠ k) : lookupS (insertS m k v) x = lookupS m x := by
  induction m with
  | nil =>
    show lookupS [(k, v)] x = lookupS [] x
    simp only [lookupS]
    rw [if_neg (fun he => h he.symm)]
  | cons a t ih =>
    by_cases hk : a.1 = k
    · rw [show insertS (a :: t) k v = (k, v) :: t by rw [insertS, if_pos hk]]
      cases a with
      | mk a1 a2 =>
        rw [lookupS, if_neg (fun he => h he.symm), lookupS]
        simp only at hk
        rw [if_neg (by rw [hk]; exact fun he => h he.symm)]
    · rw [show insertS (a :: t) k v = a :: insertS t k v by cases a; rw [insertS, if_neg hk]]
      cases a with
      | mk a1 a2 =>
        rw [lookupS, lookupS]
        by_cases hx : a1 = x
        · rw [if_pos hx, if_pos hx]
        · rw [if_neg hx, if_neg hx]
          exact ih

/-- Helper: membership in addS. -/
theorem addS_mem (s : List String) (y x : String) :
    x ∈ addS s y ↔ x ∈ s ∨ x = y := by
  unfold addS
  by_cases h : y ∈ s
  · rw [if_pos h]
    constructor
    · exact Or.inl
    · rintro (hx | rfl)
      · exact hx
      · exact h
  · rw [if_neg h]
    simp

/-! Basic lemmas about the reachability relations. -/

/-- Helper: reachability is reflexive. -/
theorem reaches_refl (g : Graph) (vis : List String) (x : String) : reaches g vis x x :=
  Relation.ReflTransGen.refl

/-- Helper: reachability is transitive. -/
theorem reaches_trans {g : Graph} {vis : List String} {x y z : String}
    (h1 : reaches g vis x y) (h2 : reaches g vis y z) : reaches g vis x z :=
  Relation.ReflTransGen.trans h1 h2

/-- Helper: one edge is a reachability step. -/
theorem reaches_single {g : Graph} {vis : List String} {x y : String}
    (h : estep g vis x y) : reaches g vis x y :=
  Relation.ReflTransGen.single h

/-- Helper: prepending one edge. -/
theorem reaches_head {g : Graph} {vis : List String} {x y z : String}
    (h : estep g vis x y) (h2 : reaches g vis y z) : reaches g vis x z :=
  Relation.ReflTransGen.head h h2

/-- Helper: mutual reachability is symmetric. -/
theorem conn_symm {g : Graph} {vis : List String} {x y : String}
    (h : conn g vis x y) : conn g vis y x := ⟨h.2, h.1⟩

/-- Helper: mutual reachability is transitive. -/
theorem conn_trans {g : Graph} {vis : List String} {x y z : String}
    (h1 : conn g vis x y) (h2 : conn g vis y z) : conn g vis x z :=
  ⟨reaches_trans h1.1 h2.1, reaches_trans h2.2 h1.2⟩

/-- Helper: mutual reachability is reflexive. -/
theorem conn_refl (g : Graph) (vis : List String) (x : String) : conn g vis x x :=
  ⟨reaches_refl g vis x, reaches_refl g vis x⟩

/-- Helper: a path from inside a set to outside it crosses the border on
some single edge. -/
theorem reaches_first_exit {g : Graph} {vis : List String} (T : String → Prop)
    {a b : String} (h : reaches g vis a b) (ha : T a) (hb : ¬ T b) :
    ∃ x z, T x ∧ ¬ T z ∧ estep g vis x z ∧ reaches g vis a x ∧ reaches g vis z b := by
  induction h using Relation.ReflTransGen.head_induction_on with
  | refl => exact absurd ha hb
  | head hstep htail ih =>
    rename_i c d
    by_cases hd : T d
    · obtain ⟨x, z, hx, hz, he, h1, h2⟩ := ih hd
      exact ⟨x, z, hx, hz, he, reaches_head hstep h1, h2⟩
    · exact ⟨c, d, ha, hd, hstep, reaches_refl g vis c, htail⟩

/-! Basic lemmas about undisc and filter lengths. -/

/-- Helper: a filter with a stronger predicate is at most as long. -/
theorem filter_length_le {α : Type} (l : List α) (p q : α → Bool)
    (hpq : ∀ x, q x = true → p x = true) : (l.filter q).length ≤ (l.filter p).length := by
  induction l with
  | nil => simp
  | cons a t ih =>
    by_cases hq : q a = true
    · have hp := hpq a hq
      simp only [List.filter, hq, hp]
      exact Nat.succ_le_succ ih
    · rw [Bool.not_eq_true] at hq
      cases hp : p a
      · simp only [List.filter, hq, hp]; exact ih
      · simp only [List.filter, hq, hp]; exact Nat.le_succ_of_le ih

/-- Helper: a filter with a strictly stronger predicate on a witness in
the list is strictly shorter. -/
theorem filter_length_lt {α : Type} (l : List α) (p q : α → Bool)
    (hpq : ∀ x, q x = true → p x = true) (w : α) (hw : w ∈ l) (hpw : p w = true)
    (hqw : q w = false) : (l.filter q).length < (l.filter p).length := by
  induction l with
  | nil => cases hw
  | cons a t ih =>
    rcases List.mem_cons.mp hw with h | h
    · subst h
      simp only [List.filter, hqw, hpw]
      exact Nat.lt_succ_of_le (filter_length_le t p q hpq)
    · by_cases hq : q a = true
      · have hp := hpq a hq
        simp only [List.filter, hq, hp]
        exact Nat.succ_lt_succ (ih h)
      · rw [Bool.not_eq_true] at hq
        cases hp : p a
        · simp only [List.filter, hq, hp]; exact ih h
        · simp only [List.filter, hq, hp]; exact Nat.lt_succ_of_lt (ih h)

/-- Helper: undisc never grows along discovery preserving steps. -/
theorem undisc_le_of_mono {vis : List String} {σ σ2 : TarjanState}
    (h : ∀ x, discovered σ x → discovered σ2 x) : undisc vis σ2 ≤ undisc vis σ := by
  refine filter_length_le vis _ _ ?_
  intro x hx
  rw [Option.isNone_iff_eq_none] at hx ⊢
  cases hl : lookupS σ.indices x with
  | none => rfl
  | some a =>
    have hdx : discovered σ x := by unfold discovered; rw [hl]; rfl
    have hd2 := h x hdx
    unfold discovered at hd2
    rw [hx] at hd2
    exact Bool.noConfusion hd2

/-- Helper: undisc strictly shrinks when a reachable node is newly
discovered. -/
theorem undisc_lt_of_new {vis : List String} {σ σ2 : TarjanState} (v : String)
    (hv : v ∈ vis) (hnd : ¬ discovered σ v) (hd : discovered σ2 v)
    (h : ∀ x, discovered σ x → discovered σ2 x) : undisc vis σ2 < undisc vis σ := by
  refine filter_length_lt vis _ _ ?_ v hv ?_ ?_
  · intro x hx
    rw [Option.isNone_iff_eq_none] at hx ⊢
    cases hl : lookupS σ.indices x with
    | none => rfl
    | some a =>
      have hdx : discovered σ x := by unfold discovered; rw [hl]; rfl
      have hd2 := h x hdx
      unfold discovered at hd2
      rw [hx] at hd2
      exact Bool.noConfusion hd2
  · unfold discovered at hnd
    rw [Option.isNone_iff_eq_none]
    cases hl : lookupS σ.indices v with
    | none => rfl
    | some a => rw [hl] at hnd; exact absurd rfl hnd
  · unfold discovered at hd
    cases hl : lookupS σ2.indices v with
    | none => rw [hl] at hd; exact Bool.noConfusion hd
    | some a => rfl

/-- Helper: an undiscovered reachable node keeps undisc positive. -/
theorem undisc_pos {vis : List String} {σ : TarjanState} (v : String) (hv : v ∈ vis)
    (hnd : ¬ discovered σ v) : 0 < undisc vis σ := by
  unfold undisc
  have : v ∈ vis.filter (fun x => (lookupS σ.indices x).isNone) := by
    refine List.mem_filter.mpr ⟨hv, ?_⟩
    unfold discovered at hnd
    rw [Option.isNone_iff_eq_none]
    cases hl : lookupS σ.indices v with
    | none => rfl
    | some a => rw [hl] at hnd; exact absurd rfl hnd
  exact List.length_pos.mpr (fun he => by rw [he] at this; cases this)

/-! Basic lemmas about popUntil and sublists. -/

/-- Helper: popUntil splits the stack at the first occurrence of v. -/
theorem popUntil_spec (v : String) : ∀ (A B : List String), ¬ v ∈ A →
    popUntil v (A ++ v :: B) = (A ++ [v], B) := by
  intro A
  induction A with
  | nil =>
    intro B _
    rw [List.nil_append, popUntil, if_pos rfl]
    rfl
  | cons a t ih =>
    intro B h
    have ha : ¬ a = v := fun he => h (he ▸ List.mem_cons_self a t)
    have ht : ¬ v ∈ t := fun hm => h (List.mem_cons_of_mem a hm)
    rw [List.cons_append, popUntil, if_neg ha, ih B ht]
    rfl

/-- Helper: a sublist headed by v embeds its tail after the occurrence
of v when v does not occur earlier. -/
theorem sublist_middle (v : String) : ∀ (A B p : List String), ¬ v ∈ A →
    (v :: p).Sublist (A ++ v :: B) → p.Sublist B := by
  intro A
  induction A with
  | nil =>
    intro B p _ h
    rw [List.nil_append] at h
    cases h with
    | cons a h2 => exact (List.sublist_cons_self v p).trans h2
    | cons₂ a h2 => exact h2
  | cons a t ih =>
    intro B p h hs
    have ha : ¬ v = a := fun he => h (he ▸ List.mem_cons_self a t)
    have ht : ¬ v ∈ t := fun hm => h (List.mem_cons_of_mem a hm)
    rw [List.cons_append] at hs
    cases hs with
    | cons b h2 => exact ih B p ht h2
    | cons₂ b h2 => exact absurd rfl ha

/-- Helper: a lookup is defined after an insert exactly for the inserted
key or a previously defined key. -/
theorem lookup_insert_isSome {α : Type} (m : List (String × α)) (k x : String) (v : α) :
    (lookupS (insertS m k v) x).isSome = true ↔ x = k ∨ (lookupS m x).isSome = true := by
  by_cases h : x = k
  · subst h
    rw [lookupS_insert_self]
    simp
  · rw [lookupS_insert_ne m k x v h]
    simp [h]

/-- Helper: the pushed state of strongConnect discovers exactly v anew. -/
theorem tarjan_push {g : Graph} {vis p : List String} {σ : TarjanState} {v : String}
    (inv : TarjanInv g vis p σ) (hv : v ∈ vis) (hnd : ¬ discovered σ v)
    (hPE : ∀ x ∈ σ.stack, reaches g vis x v) :
    TarjanInv g vis (v :: p)
      { index := σ.index + 1
        indices := insertS σ.indices v σ.index
        lowLink := insertS σ.lowLink v σ.index
        stack := v :: σ.stack
        onStack := addS σ.onStack v
        sccs := σ.sccs } := by
  set σ1 : TarjanState :=
    { index := σ.index + 1
      indices := insertS σ.indices v σ.index
      lowLink := insertS σ.lowLink v σ.index
      stack := v :: σ.stack
      onStack := addS σ.onStack v
      sccs := σ.sccs } with hσ1
  have hvstack : ¬ v ∈ σ.stack := fun h => hnd (inv.stack_dsc v h)
  have hdisc1 : ∀ x, discovered σ1 x ↔ x = v ∨ discovered σ x := by
    intro x
    exact lookup_insert_isSome σ.indices v x σ.index
  have hidx_old : ∀ x, x ≠ v → idxOf σ1 x = idxOf σ x := by
    intro x hx
    show lookupD (insertS σ.indices v σ.index) x 0 = lookupD σ.indices x 0
    unfold lookupD
    rw [lookupS_insert_ne σ.indices v x σ.index hx]
  have hidx_v : idxOf σ1 v = σ.index := by
    show lookupD (insertS σ.indices v σ.index) v 0 = σ.index
    unfold lookupD
    rw [lookupS_insert_self]
    rfl
  have hlow_old : ∀ x, x ≠ v → lowOf σ1 x = lowOf σ x := by
    intro x hx
    show lookupD (insertS σ.lowLink v σ.index) x 0 = lookupD σ.lowLink x 0
    unfold lookupD
    rw [lookupS_insert_ne σ.lowLink v x σ.index hx]
  have hlow_v : lowOf σ1 v = σ.index := by
    show lookupD (insertS σ.lowLink v σ.index) v 0 = σ.index
    unfold lookupD
    rw [lookupS_insert_self]
    rfl
  have hscc1 : ∀ x, inScc σ1 x ↔ inScc σ x := fun x => Iff.rfl
  have hstack_ne : ∀ x, x ∈ σ.stack → x ≠ v := fun x hx he => hvstack (he ▸ hx)
  have hgray_ne : ∀ γ, γ ∈ p → γ ≠ v :=
    fun γ hγ => hstack_ne γ (inv.gray_sublist.mem hγ)
  refine ⟨⟨?_, ?_, ?_, ?_, ?_, ?_, ?_, ?_, ?_, ?_, ?_, ?_, ?_, ?_, ?_, ?_, ?_, ?_, ?_,
    ?_, ?_⟩, ?_⟩
  · exact List.nodup_cons.mpr ⟨hvstack, inv.stack_nodup⟩
  · intro x hx
    rcases List.mem_cons.mp hx with rfl | hx2
    · exact hv
    · exact inv.stack_vis x hx2
  · intro x
    rw [show (σ1.onStack = addS σ.onStack v) from rfl, addS_mem, inv.onStack_iff]
    show x ∈ σ.stack ∨ x = v ↔ x ∈ v :: σ.stack
    rw [List.mem_cons]
    exact Or.comm
  · intro x hx
    rcases List.mem_cons.mp hx with rfl | hx2
    · exact (hdisc1 x).mpr (Or.inl rfl)
    · exact (hdisc1 x).mpr (Or.inr (inv.stack_dsc x hx2))
  · intro x hx
    rcases (hdisc1 x).mp hx with rfl | hx2
    · exact Or.inl (List.mem_cons_self x σ.stack)
    · rcases inv.dsc_split x hx2 with h | h
      · exact Or.inl (List.mem_cons_of_mem v h)
      · exact Or.inr ((hscc1 x).mpr h)
  · intro x hx hs
    rcases List.mem_cons.mp hx with rfl | hx2
    · exact hnd (inv.inScc_dsc x ((hscc1 x).mp hs))
    · exact inv.not_both x hx2 ((hscc1 x).mp hs)
  · intro x hx
    rcases (hdisc1 x).mp hx with rfl | hx2
    · exact hv
    · exact inv.dsc_vis x hx2
  · intro x hx
    exact (hdisc1 x).mpr (Or.inr (inv.inScc_dsc x ((hscc1 x).mp hx)))
  · intro x
    rw [hdisc1 x, lookup_insert_isSome σ.lowLink v x σ.index]
    exact or_congr Iff.rfl (inv.low_dom x)
  · intro x hx
    rcases (hdisc1 x).mp hx with rfl | hx2
    · rw [hidx_v]
      exact Nat.lt_succ_self σ.index
    · rw [hidx_old x (fun he => hnd (he ▸ hx2))]
      exact Nat.lt_succ_of_lt (inv.idx_lt x hx2)
  · intro x y hx hy hxy
    rcases (hdisc1 x).mp hx with rfl | hx2 <;> rcases (hdisc1 y).mp hy with h | hy2
    · rw [h]
    · rw [hidx_v, hidx_old y (fun he => hnd (he ▸ hy2))] at hxy
      exact absurd (hxy ▸ inv.idx_lt y hy2) (Nat.lt_irrefl σ.index)
    · subst h
      rw [hidx_v, hidx_old x (fun he => hnd (he ▸ hx2))] at hxy
      exact absurd (hxy ▸ inv.idx_lt x hx2) (Nat.lt_irrefl σ.index)
    · rw [hidx_old x (fun he => hnd (he ▸ hx2)), hidx_old y (fun he => hnd (he ▸ hy2))] at hxy
      exact inv.idx_inj x y hx2 hy2 hxy
  · show (v :: σ.stack).Pairwise (fun a b => idxOf σ1 b < idxOf σ1 a)
    rw [List.pairwise_cons]
    constructor
    · intro y hy
      rw [hidx_v, hidx_old y (hstack_ne y hy)]
      exact inv.idx_lt y (inv.stack_dsc y hy)
    · refine List.Pairwise.imp_of_mem ?_ inv.stack_sorted
      intro a b ha hb hab
      rw [hidx_old b (hstack_ne b hb), hidx_old a (hstack_ne a ha)]
      exact hab
  · exact inv.gray_sublist.cons₂ v
  · intro x hx y hy hxy
    rcases List.mem_cons.mp hx with hxv | hx2 <;> rcases List.mem_cons.mp hy with hyv | hy2
    · rw [hxv, hyv]
      exact reaches_refl g vis v
    · rw [hxv] at hxy
      rw [hidx_v, hidx_old y (hstack_ne y hy2)] at hxy
      exact absurd (Nat.lt_of_lt_of_le (inv.idx_lt y (inv.stack_dsc y hy2)) hxy)
        (Nat.lt_irrefl _)
    · rw [hyv]
      exact hPE x hx2
    · rw [hidx_old x (hstack_ne x hx2), hidx_old y (hstack_ne y hy2)] at hxy
      exact inv.reach_up x hx2 y hy2 hxy
  · intro x hx
    rcases List.mem_cons.mp hx with rfl | hx2
    · exact ⟨x, List.mem_cons_self x p, Nat.le_refl _, reaches_refl g vis x⟩
    · obtain ⟨γ, hγp, hγle, hγr⟩ := inv.gray_return x hx2
      refine ⟨γ, List.mem_cons_of_mem v hγp, ?_, hγr⟩
      rw [hidx_old γ (hgray_ne γ hγp), hidx_old x (hstack_ne x hx2)]
      exact hγle
  · intro x hx hs
    rcases (hdisc1 x).mp hx with rfl | hx2
    · rw [hidx_v, hlow_v]
    · rw [hidx_old x (fun he => hnd (he ▸ hx2)), hlow_old x (fun he => hnd (he ▸ hx2))]
      exact inv.low_le x hx2 (fun h => hs ((hscc1 x).mpr h))
  · intro x hx hs
    rcases (hdisc1 x).mp hx with rfl | hx2
    · exact ⟨x, List.mem_cons_self x σ.stack, by rw [hidx_v, hlow_v], reaches_refl g vis x⟩
    · obtain ⟨y, hy, hyi, hyr⟩ := inv.low_real x hx2 (fun h => hs ((hscc1 x).mpr h))
      refine ⟨y, List.mem_cons_of_mem v hy, ?_, hyr⟩
      rw [hidx_old y (hstack_ne y hy), hlow_old x (fun he => hnd (he ▸ hx2))]
      exact hyi
  · intro x hx hp w hw
    have hxv : x ≠ v := fun he => hp (he ▸ List.mem_cons_self v p)
    have hx2 : discovered σ x := ((hdisc1 x).mp hx).resolve_left hxv
    have hxp : ¬ x ∈ p := fun h => hp (List.mem_cons_of_mem v h)
    exact (hdisc1 w).mpr (Or.inr (inv.black_explored x hx2 hxp w hw))
  · intro x hx hp w hw hws
    have hxv : x ≠ v := fun he => hp (he ▸ List.mem_cons_self v p)
    have hx2 : x ∈ σ.stack := (List.mem_cons.mp hx).resolve_left hxv
    have hxp : ¬ x ∈ p := fun h => hp (List.mem_cons_of_mem v h)
    rcases List.mem_cons.mp hws with rfl | hws2
    · exact absurd (inv.black_explored x (inv.stack_dsc x hx2) hxp w hw) hnd
    · rw [hlow_old x hxv, hidx_old w (hstack_ne w hws2)]
      exact inv.black_low_edge x hx2 hxp w hw hws2
  · exact inv.sccs_classes
  · exact inv.sccs_join_nodup
  · intro x hx hp γ hγ hγlt hγmax
    have hxv : x ≠ v := fun he => hp (he ▸ List.mem_cons_self v p)
    have hx2 : x ∈ σ.stack := (List.mem_cons.mp hx).resolve_left hxv
    have hxp : ¬ x ∈ p := fun h => hp (List.mem_cons_of_mem v h)
    rcases List.mem_cons.mp hγ with rfl | hγ2
    · rw [hidx_v, hidx_old x hxv] at hγlt
      exact absurd (Nat.lt_trans (inv.idx_lt x (inv.stack_dsc x hx2)) hγlt)
        (Nat.lt_irrefl _)
    · rw [hlow_old γ (hgray_ne γ hγ2), hlow_old x hxv]
      refine inv.black_low_gray x hx2 hxp γ hγ2 ?_ ?_
      · rw [hidx_old γ (hgray_ne γ hγ2), hidx_old x hxv] at hγlt
        exact hγlt
      · intro γ2 hγ22 hγ2lt
        have := hγmax γ2 (List.mem_cons_of_mem v hγ22)
        rw [hidx_old γ2 (hgray_ne γ2 hγ22), hidx_old x hxv,
          hidx_old γ (hgray_ne γ hγ2)] at this
        exact this hγ2lt

/-- Helper: lowering the low link of the gray head v to the minimum with
a realized (or harmless) bound keeps the invariant. -/
theorem tarjan_lower {g : Graph} {vis p : List String} {σ2 : TarjanState} {v : String}
    {m : Nat}
    (core : TarjanInvCore g vis (v :: p) σ2)
    (hvs : v ∈ σ2.stack)
    (hreal : (∃ y, y ∈ σ2.stack ∧ idxOf σ2 y = m ∧ reaches g vis v y) ∨ lowOf σ2 v ≤ m)
    (hblg : ∀ x ∈ σ2.stack, ¬ x ∈ v :: p → ∀ γ ∈ v :: p, idxOf σ2 γ < idxOf σ2 x →
      (∀ γ2 ∈ v :: p, idxOf σ2 γ2 < idxOf σ2 x → idxOf σ2 γ2 ≤ idxOf σ2 γ) →
      (γ ≠ v → lowOf σ2 γ ≤ lowOf σ2 x) ∧
      (γ = v → min (lowOf σ2 v) m ≤ lowOf σ2 x)) :
    TarjanInv g vis (v :: p)
      { σ2 with lowLink := insertS σ2.lowLink v (min (lowOf σ2 v) m) } := by
  set σ3 : TarjanState := { σ2 with lowLink := insertS σ2.lowLink v (min (lowOf σ2 v) m) }
    with hσ3
  have hidx : ∀ x, idxOf σ3 x = idxOf σ2 x := fun x => rfl
  have hdisc : ∀ x, discovered σ3 x ↔ discovered σ2 x := fun x => Iff.rfl
  have hscc : ∀ x, inScc σ3 x ↔ inScc σ2 x := fun x => Iff.rfl
  have hlow_old : ∀ x, x ≠ v → lowOf σ3 x = lowOf σ2 x := by
    intro x hx
    show lookupD (insertS σ2.lowLink v _) x 0 = lookupD σ2.lowLink x 0
    unfold lookupD
    rw [lookupS_insert_ne σ2.lowLink v x _ hx]
  have hlow_v : lowOf σ3 v = min (lowOf σ2 v) m := by
    show lookupD (insertS σ2.lowLink v _) v 0 = _
    unfold lookupD
    rw [lookupS_insert_self]
    rfl
  have hdv : discovered σ2 v := core.stack_dsc v hvs
  have hnc : ¬ inScc σ2 v := core.not_both v hvs
  refine ⟨⟨core.stack_nodup, core.stack_vis, core.onStack_iff, core.stack_dsc,
    core.dsc_split, core.not_both, core.dsc_vis, core.inScc_dsc, ?_, core.idx_lt,
    core.idx_inj, core.stack_sorted, core.gray_sublist, core.reach_up, core.gray_return,
    ?_, ?_, core.black_explored, ?_, core.sccs_classes, core.sccs_join_nodup⟩, ?_⟩
  · intro x
    show discovered σ2 x ↔ (lookupS (insertS σ2.lowLink v _) x).isSome = true
    rw [lookup_insert_isSome]
    constructor
    · intro h
      exact Or.inr ((core.low_dom x).mp h)
    · rintro (rfl | h)
      · exact hdv
      · exact (core.low_dom x).mpr h
  · intro x hx hs
    by_cases hxv : x = v
    · subst hxv
      rw [hlow_v]
      exact le_trans (min_le_left _ _) (core.low_le x hdv hnc)
    · rw [hlow_old x hxv]
      exact core.low_le x hx hs
  · intro x hx hs
    by_cases hxv : x = v
    · subst hxv
      rw [hlow_v]
      rcases hreal with ⟨y, hy, hyi, hyr⟩ | hge
      · by_cases hm : m ≤ lowOf σ2 x
        · rw [min_eq_right hm] at *
          exact ⟨y, hy, hyi, hyr⟩
        · rw [min_eq_left (Nat.le_of_not_le hm)]
          exact core.low_real x hdv hnc
      · rw [min_eq_left hge]
        exact core.low_real x hdv hnc
    · rw [hlow_old x hxv]
      exact core.low_real x hx hs
  · intro x hx hp w hw hws
    have hxv : x ≠ v := fun he => hp (he ▸ List.mem_cons_self v p)
    rw [hlow_old x hxv]
    exact core.black_low_edge x hx hp w hw hws
  · intro x hx hp γ hγ hγlt hγmax
    have hxv : x ≠ v := fun he => hp (he ▸ List.mem_cons_self v p)
    have hb := hblg x hx hp γ hγ hγlt hγmax
    rw [hlow_old x hxv]
    by_cases hγv : γ = v
    · subst hγv
      rw [hlow_v]
      exact hb.2 rfl
    · rw [hlow_old γ hγv]
      exact hb.1 hγv

/-- Helper: popping the component of a root v whose low link equals its
index produces a true strongly connected component and restores the
invariant for the outer gray context. -/
theorem tarjan_pop {g : Graph} {vis p : List String} {σ2 : TarjanState} {v : String}
    {A B : List String}
    (inv : TarjanInv g vis (v :: p) σ2)
    (hsplit : σ2.stack = A ++ v :: B)
    (hEL : edgeLows g σ2 v (adjOf g v))
    (hED : edgeDsc vis σ2 (adjOf g v))
    (hroot : lowOf σ2 v = idxOf σ2 v) :
    TarjanInv g vis p
      { σ2 with
          stack := B
          onStack := σ2.onStack.filter (fun x => decide (¬ x ∈ (A ++ [v])))
          sccs := σ2.sccs ++ [A ++ [v]] } ∧
    (∀ u ∈ A ++ [v], ∀ w, conn g vis u w ↔ w ∈ A ++ [v]) := by
  have hnodup : (A ++ v :: B).Nodup := hsplit ▸ inv.stack_nodup
  obtain ⟨hndA, hndvB, hdisj⟩ := List.nodup_append.mp hnodup
  have hvA : ¬ v ∈ A := fun h => hdisj h (List.mem_cons_self v B)
  obtain ⟨hvB, hndB⟩ := List.nodup_cons.mp hndvB
  have hmemv : v ∈ σ2.stack := by
    rw [hsplit]; exact List.mem_append_right A (List.mem_cons_self v B)
  have hmemA : ∀ x ∈ A, x ∈ σ2.stack := by
    intro x hx; rw [hsplit]; exact List.mem_append_left _ hx
  have hmemB : ∀ x ∈ B, x ∈ σ2.stack := by
    intro x hx; rw [hsplit]; exact List.mem_append_right A (List.mem_cons_of_mem v hx)
  have hsorted := hsplit ▸ inv.stack_sorted
  obtain ⟨hPA, hPvB, hcross⟩ := List.pairwise_append.mp hsorted
  have hidxA : ∀ x ∈ A, idxOf σ2 v < idxOf σ2 x :=
    fun x hx => hcross x hx v (List.mem_cons_self v B)
  have hidxB : ∀ y ∈ B, idxOf σ2 y < idxOf σ2 v :=
    fun y hy => (List.pairwise_cons.mp hPvB).1 y hy
  have hpB : p.Sublist B := sublist_middle v A B p hvA (hsplit ▸ inv.gray_sublist)
  have hvp : ¬ v ∈ p := fun h => hvB (hpB.mem h)
  have hABd : ∀ x ∈ A, ¬ x ∈ B := fun x hx hb => hdisj hx (List.mem_cons_of_mem v hb)
  have hAp : ∀ x ∈ A, ¬ x ∈ v :: p := by
    intro x hx h
    rcases List.mem_cons.mp h with rfl | h2
    · exact hvA hx
    · exact hABd x hx (hpB.mem h2)
  have hTmem : ∀ x, x ∈ A ++ [v] ↔ x ∈ A ∨ x = v := by
    intro x; simp
  have hTstack : ∀ x ∈ A ++ [v], x ∈ σ2.stack := by
    intro x hx
    rcases (hTmem x).mp hx with h | rfl
    · exact hmemA x h
    · exact hmemv
  have hBnotT : ∀ x ∈ B, ¬ x ∈ A ++ [v] := by
    intro x hx h
    rcases (hTmem x).mp h with h2 | rfl
    · exact hABd x h2 hx
    · exact hvB hx
  have hidxT : ∀ x ∈ A ++ [v], idxOf σ2 v ≤ idxOf σ2 x := by
    intro x hx
    rcases (hTmem x).mp hx with h | rfl
    · exact Nat.le_of_lt (hidxA x h)
    · exact Nat.le_refl _
  -- every popped node is mutually connected with the root
  have hconnT : ∀ x ∈ A ++ [v], conn g vis v x := by
    intro x hx
    have hxs := hTstack x hx
    refine ⟨inv.reach_up v hmemv x hxs (hidxT x hx), ?_⟩
    obtain ⟨γ, hγ, hγle, hγr⟩ := inv.gray_return x hxs
    rcases List.mem_cons.mp hγ with hγv | hγ2
    · rw [hγv] at hγr
      exact hγr
    · have hγB : γ ∈ B := hpB.mem hγ2
      exact reaches_trans hγr
        (inv.reach_up γ (hmemB γ hγB) v hmemv (Nat.le_of_lt (hidxB γ hγB)))
  -- nothing outside the popped segment is connected with the root
  have hclassT : ∀ w, conn g vis v w → w ∈ A ++ [v] := by
    intro w hw
    by_contra hwT
    have hTv : (fun z => z ∈ A ++ [v]) v := by
      show v ∈ A ++ [v]
      exact (hTmem v).mpr (Or.inr rfl)
    obtain ⟨x, z, hxT, hzT, hxz, hvx, hzw⟩ :=
      reaches_first_exit (fun z => z ∈ A ++ [v]) hw.1 hTv hwT
    have hzdsc : discovered σ2 z := by
      rcases (hTmem x).mp hxT with hxA | rfl
      · exact inv.black_explored x (inv.stack_dsc x (hmemA x hxA)) (hAp x hxA) z hxz
      · exact hED z hxz.1 hxz.2
    have hconnvz : conn g vis v z :=
      ⟨reaches_trans hvx (reaches_single hxz), reaches_trans hzw hw.2⟩
    rcases inv.dsc_split z hzdsc with hzs | hzc
    · -- z still on the stack, strictly below the root: the low links forbid it
      have hzB : z ∈ B := by
        rw [hsplit] at hzs
        rcases List.mem_append.mp hzs with h | h
        · exact absurd ((hTmem z).mpr (Or.inl h)) hzT
        · rcases List.mem_cons.mp h with hzv | h2
          · exact absurd ((hTmem z).mpr (Or.inr hzv)) hzT
          · exact h2
      have hzlt : idxOf σ2 z < idxOf σ2 v := hidxB z hzB
      rcases (hTmem x).mp hxT with hxA | rfl
      · have h1 : lowOf σ2 x ≤ idxOf σ2 z :=
          inv.black_low_edge x (hmemA x hxA) (hAp x hxA) z hxz hzs
        have h2 : lowOf σ2 v ≤ lowOf σ2 x := by
          refine inv.black_low_gray x (hmemA x hxA) (hAp x hxA) v
            (List.mem_cons_self v p) (hidxA x hxA) ?_
          intro γ2 hγ2 _
          rcases List.mem_cons.mp hγ2 with rfl | hγ22
          · exact Nat.le_refl _
          · exact Nat.le_of_lt (hidxB γ2 (hpB.mem hγ22))
        rw [hroot] at h2
        exact absurd (Nat.lt_of_le_of_lt (Nat.le_trans h2 h1) hzlt) (Nat.lt_irrefl _)
      · have h1 : lowOf σ2 x ≤ idxOf σ2 z := hEL z hxz.1 hzs
        rw [hroot] at h1
        exact absurd (Nat.lt_of_le_of_lt h1 hzlt) (Nat.lt_irrefl _)
    · -- z already completed: its class would swallow the root
      obtain ⟨C, hC, hzC⟩ := List.mem_join.mp hzc
      have := ((inv.sccs_classes C hC).2 z hzC v).mp (conn_symm hconnvz)
      exact inv.not_both v hmemv (List.mem_join.mpr ⟨C, hC, this⟩)
  -- the popped segment is exactly one mutual reachability class
  have hTclass : ∀ u ∈ A ++ [v], ∀ w, conn g vis u w ↔ w ∈ A ++ [v] := by
    intro u hu w
    have hvu := hconnT u hu
    constructor
    · intro huw
      exact hclassT w (conn_trans hvu huw)
    · intro hwT
      exact conn_trans (conn_symm hvu) (hconnT w hwT)
  refine ⟨⟨⟨hndB, ?_, ?_, ?_, ?_, ?_, ?_, ?_, ?_, ?_, ?_, ?_, hpB, ?_, ?_, ?_, ?_,
    ?_, ?_, ?_, ?_⟩, ?_⟩, hTclass⟩
  · intro x hx
    exact inv.stack_vis x (hmemB x hx)
  · intro x
    rw [List.mem_filter]
    constructor
    · rintro ⟨h1, h2⟩
      have hxs := (inv.onStack_iff x).mp h1
      simp only [decide_eq_true_eq] at h2
      rw [hsplit] at hxs
      rcases List.mem_append.mp hxs with h | h
      · exact absurd ((hTmem x).mpr (Or.inl h)) h2
      · rcases List.mem_cons.mp h with rfl | h3
        · exact absurd ((hTmem x).mpr (Or.inr rfl)) h2
        · exact h3
    · intro hx
      refine ⟨(inv.onStack_iff x).mpr (hmemB x hx), ?_⟩
      simp only [decide_eq_true_eq]
      exact hBnotT x hx
  · intro x hx
    exact inv.stack_dsc x (hmemB x hx)
  · intro x hx
    rcases inv.dsc_split x hx with hxs | hxc
    · rw [hsplit] at hxs
      rcases List.mem_append.mp hxs with h | h
      · exact Or.inr (List.mem_join.mpr ⟨A ++ [v], by simp, (hTmem x).mpr (Or.inl h)⟩)
      · rcases List.mem_cons.mp h with hxv | h3
        · exact Or.inr (List.mem_join.mpr ⟨A ++ [v], by simp, (hTmem x).mpr (Or.inr hxv)⟩)
        · exact Or.inl h3
    · obtain ⟨C, hC, hxC⟩ := List.mem_join.mp hxc
      exact Or.inr (List.mem_join.mpr ⟨C, List.mem_append_left _ hC, hxC⟩)
  · intro x hx hxc
    obtain ⟨C, hC, hxC⟩ := List.mem_join.mp hxc
    rcases List.mem_append.mp hC with h | h
    · exact inv.not_both x (hmemB x hx) (List.mem_join.mpr ⟨C, h, hxC⟩)
    · rw [List.mem_singleton] at h
      subst h
      exact hBnotT x hx hxC
  · intro x hx
    exact inv.dsc_vis x hx
  · intro x hxc
    obtain ⟨C, hC, hxC⟩ := List.mem_join.mp hxc
    rcases List.mem_append.mp hC with h | h
    · exact inv.inScc_dsc x (List.mem_join.mpr ⟨C, h, hxC⟩)
    · rw [List.mem_singleton] at h
      subst h
      exact inv.stack_dsc x (hTstack x hxC)
  · exact inv.low_dom
  · exact inv.idx_lt
  · exact inv.idx_inj
  · exact (List.pairwise_cons.mp hPvB).2
  · intro x hx y hy hxy
    exact inv.reach_up x (hmemB x hx) y (hmemB y hy) hxy
  · intro x hx
    obtain ⟨γ, hγ, hγle, hγr⟩ := inv.gray_return x (hmemB x hx)
    rcases List.mem_cons.mp hγ with hγv | hγ2
    · rw [hγv] at hγle
      exact absurd (Nat.lt_of_le_of_lt hγle (hidxB x hx)) (Nat.lt_irrefl _)
    · exact ⟨γ, hγ2, hγle, hγr⟩
  · intro x hx hxc
    refine inv.low_le x hx ?_
    intro h
    obtain ⟨C, hC, hxC⟩ := List.mem_join.mp h
    exact hxc (List.mem_join.mpr ⟨C, List.mem_append_left _ hC, hxC⟩)
  · intro x hx hxc
    have hxc2 : ¬ inScc σ2 x := by
      intro h
      obtain ⟨C, hC, hxC⟩ := List.mem_join.mp h
      exact hxc (List.mem_join.mpr ⟨C, List.mem_append_left _ hC, hxC⟩)
    have hxB : x ∈ B := by
      rcases inv.dsc_split x hx with hxs | h2
      · rw [hsplit] at hxs
        rcases List.mem_append.mp hxs with h | h
        · exact absurd (List.mem_join.mpr ⟨A ++ [v], by simp,
            (hTmem x).mpr (Or.inl h)⟩) hxc
        · rcases List.mem_cons.mp h with hxv | h3
          · exact absurd (List.mem_join.mpr ⟨A ++ [v], by simp,
              (hTmem x).mpr (Or.inr hxv)⟩) hxc
          · exact h3
      · exact absurd h2 hxc2
    obtain ⟨y, hy, hyi, hyr⟩ := inv.low_real x hx hxc2
    have hyB : y ∈ B := by
      rw [hsplit] at hy
      rcases List.mem_append.mp hy with h | h
      · have h1 : idxOf σ2 v < idxOf σ2 y := hidxA y h
        have h2 : lowOf σ2 x ≤ idxOf σ2 x := inv.low_le x hx hxc2
        have h3 : idxOf σ2 x < idxOf σ2 v := hidxB x hxB
        omega
      · rcases List.mem_cons.mp h with hyv | h3
        · have h2 : lowOf σ2 x ≤ idxOf σ2 x := inv.low_le x hx hxc2
          have h3 : idxOf σ2 x < idxOf σ2 v := hidxB x hxB
          rw [hyv] at hyi
          omega
        · exact h3
    exact ⟨y, hyB, hyi, hyr⟩
  · intro x hx hp2 w hw
    by_cases hxv : x = v
    · subst hxv
      exact hED w hw.1 hw.2
    · refine inv.black_explored x hx ?_ w hw
      intro h
      rcases List.mem_cons.mp h with h2 | h2
      · exact hxv h2
      · exact hp2 h2
  · intro x hx hp2 w hw hws
    have hxv : x ≠ v := fun he => hvB (he ▸ hx)
    refine inv.black_low_edge x (hmemB x hx) ?_ w hw (hmemB w hws)
    intro h
    rcases List.mem_cons.mp h with h2 | h2
    · exact hxv h2
    · exact hp2 h2
  · intro C hC
    rcases List.mem_append.mp hC with h | h
    · exact inv.sccs_classes C h
    · rw [List.mem_singleton] at h
      subst h
      refine ⟨?_, hTclass⟩
      simp
  · have hTnd : (A ++ [v]).Nodup := by
      rw [List.nodup_append]
      refine ⟨hndA, List.nodup_singleton v, ?_⟩
      intro a ha hb
      rw [List.mem_singleton] at hb
      exact hvA (hb ▸ ha)
    have hjoin : (σ2.sccs ++ [A ++ [v]]).join = σ2.sccs.join ++ (A ++ [v]) := by simp
    show (σ2.sccs ++ [A ++ [v]]).join.Nodup
    rw [hjoin, List.nodup_append]
    refine ⟨inv.sccs_join_nodup, hTnd, ?_⟩
    intro a ha hb
    exact inv.not_both a (hTstack a hb) ha
  · intro x hx hp2 γ hγ hγlt hγmax
    have hxv : x ≠ v := fun he => hvB (he ▸ hx)
    have hxvp : ¬ x ∈ v :: p := by
      intro h
      rcases List.mem_cons.mp h with h2 | h2
      · exact hxv h2
      · exact hp2 h2
    refine inv.black_low_gray x (hmemB x hx) hxvp γ (List.mem_cons_of_mem v hγ) hγlt ?_
    intro γ2 hγ2 hγ2lt
    rcases List.mem_cons.mp hγ2 with rfl | hγ22
    · exact absurd (Nat.lt_trans (hidxB x hx) hγ2lt) (Nat.lt_irrefl _)
    · exact hγmax γ2 hγ22 hγ2lt

/-- Helper: under the invariant with gray head v on the stack, every
stack node reaches v. -/
theorem stack_reaches_gray_head {g : Graph} {vis p : List String} {σ : TarjanState}
    {v : String} (core : TarjanInvCore g vis (v :: p) σ) (hvs : v ∈ σ.stack) :
    ∀ x ∈ σ.stack, reaches g vis x v := by
  intro x hx
  obtain ⟨γ, hγ, _, hγr⟩ := core.gray_return x hx
  rcases List.mem_cons.mp hγ with hγv | hγp
  · rw [hγv] at hγr
    exact hγr
  · have hγs : γ ∈ σ.stack := core.gray_sublist.subset (List.mem_cons_of_mem v hγp)
    have hpair : (v :: p).Pairwise (fun a b => idxOf σ b < idxOf σ a) :=
      core.stack_sorted.sublist core.gray_sublist
    have hlt : idxOf σ γ < idxOf σ v := (List.pairwise_cons.mp hpair).1 γ hγp
    exact reaches_trans hγr (core.reach_up γ hγs v hvs (le_of_lt hlt))

/-- Helper: a member list of a list of lists with duplicate free join is
itself duplicate free. -/
theorem nodup_of_mem_join_nodup {C : List String} : ∀ {L : List (List String)},
    C ∈ L → L.join.Nodup → C.Nodup := by
  intro L
  induction L with
  | nil => intro h; cases h
  | cons D t ih =>
    intro hC hnd
    rw [show (D :: t).join = D ++ t.join from rfl] at hnd
    rcases List.mem_cons.mp hC with hCD | hCt
    · exact hCD ▸ (List.Nodup.of_append_left hnd)
    · exact ih hCt (List.Nodup.of_append_right hnd)

/-- C10 witness: two pre transition failures at concrete inputs that
leave the position unchanged. -/
theorem c10_witness :
    choose walkRt "nope" () =
      (.error "Choice \"nope\" not found in node \"start\".", walkRt) ∧
    divert walkRt ⟨none, "ghost"⟩ () =
      (.error "Node \"ghost\" in knot \"intro\" not found.", walkRt) := by
  constructor
  · exact (c10_failure_atomicity walkRt "nope" ⟨none, "ghost"⟩ () walkStartNode
      (exChoice "x" "y") (exNode "z" [] false) "e").2.1 rfl rfl
  · exact (c10_failure_atomicity walkRt "nope" ⟨none, "ghost"⟩ () walkStartNode
      (exChoice "x" "y") (exNode "z" [] false)
      "Node \"ghost\" in knot \"intro\" not found.").2.2.2.2.2.2.1 rfl

/-- Helper: the identity evolution. -/
theorem nsstep_refl (g : Graph) (vis : List String) (σ : TarjanState) (v : String)
    (hsd : ∀ x ∈ σ.stack, discovered σ x) : NSStep g vis σ σ v := by
  refine ⟨fun x h => h, fun x _ => rfl, fun x _ _ => rfl, le_refl _, fun x h => h,
    le_refl _, ⟨[], rfl, fun x h => absurd h (List.not_mem_nil x)⟩,
    ⟨[], (List.append_nil _).symm, fun C h => absurd h (List.not_mem_nil C)⟩,
    ?_, le_refl _, ?_, ?_⟩
  · intro x h1 h2
    exact absurd h2 h1
  · intro x hx hnd
    exact absurd (hsd x hx) hnd
  · intro x h1 h2
    exact absurd h2 h1

/-- Helper: lowering the low link of v is an evolution step. -/
theorem nsstep_lower (g : Graph) (vis : List String) (σ : TarjanState) (v : String)
    (m : Nat) (hsd : ∀ x ∈ σ.stack, discovered σ x) :
    NSStep g vis σ { σ with lowLink := insertS σ.lowLink v (min (lowOf σ v) m) } v := by
  set σ3 : TarjanState := { σ with lowLink := insertS σ.lowLink v (min (lowOf σ v) m) }
    with hσ3
  have hlow_old : ∀ x, x ≠ v → lowOf σ3 x = lowOf σ x := by
    intro x hx
    show lookupD (insertS σ.lowLink v _) x 0 = lookupD σ.lowLink x 0
    unfold lookupD
    rw [lookupS_insert_ne σ.lowLink v x _ hx]
  have hlow_v : lowOf σ3 v = min (lowOf σ v) m := by
    show lookupD (insertS σ.lowLink v _) v 0 = _
    unfold lookupD
    rw [lookupS_insert_self]
    rfl
  refine ⟨fun x h => h, fun x _ => rfl, fun x _ hxv => hlow_old x hxv,
    hlow_v ▸ min_le_left _ _, fun x h => h,
    le_refl _, ⟨[], rfl, fun x h => absurd h (List.not_mem_nil x)⟩,
    ⟨[], (List.append_nil _).symm, fun C h => absurd h (List.not_mem_nil C)⟩,
    ?_, le_refl _, ?_, ?_⟩
  · intro x h1 h2
    exact absurd h2 h1
  · intro x hx hnd
    exact absurd (hsd x hx) hnd
  · intro x h1 h2
    exact absurd h2 h1

/-- Helper: evolution steps compose when v is discovered at the start. -/
theorem nsstep_trans {g : Graph} {vis : List String} {σ σ2 σ3 : TarjanState}
    {v : String} (h1 : NSStep g vis σ σ2 v) (h2 : NSStep g vis σ2 σ3 v)
    (hv : discovered σ v) : NSStep g vis σ σ3 v := by
  obtain ⟨Δ1, hs1, hn1⟩ := h1.stack_suffix
  obtain ⟨Δ2, hs2, hn2⟩ := h2.stack_suffix
  obtain ⟨N1, hc1, hm1⟩ := h1.sccs_suffix
  obtain ⟨N2, hc2, hm2⟩ := h2.sccs_suffix
  refine ⟨fun x h => h2.dsc_mono x (h1.dsc_mono x h),
    fun x h => (h2.idx_pres x (h1.dsc_mono x h)).trans (h1.idx_pres x h),
    fun x h hxv => (h2.low_pres x (h1.dsc_mono x h) hxv).trans (h1.low_pres x h hxv),
    le_trans h2.low_v_le h1.low_v_le,
    fun x h => h2.inScc_mono x (h1.inScc_mono x h),
    le_trans h1.index_mono h2.index_mono,
    ⟨Δ2 ++ Δ1, by rw [hs2, hs1, List.append_assoc], ?_⟩,
    ⟨N1 ++ N2, by rw [hc2, hc1, List.append_assoc], ?_⟩,
    ?_, le_trans h2.undisc_le h1.undisc_le, ?_, ?_⟩
  · intro x hx
    rcases List.mem_append.mp hx with h | h
    · exact fun hd => hn2 x h (h1.dsc_mono x hd)
    · exact hn1 x h
  · intro C hC
    rcases List.mem_append.mp hC with h | h
    · exact hm1 C h
    · exact fun x hx hd => hm2 C h x hx (h1.dsc_mono x hd)
  · intro x hnd hd3
    by_cases hd2 : discovered σ2 x
    · exact h1.reach_new x hnd hd2
    · exact h2.reach_new x hd2 hd3
  · intro x hx hnd
    by_cases hd2 : discovered σ2 x
    · have hxv : x ≠ v := fun he => hnd (he ▸ hv)
      have hx2 : x ∈ σ2.stack := by
        rw [hs2] at hx
        rcases List.mem_append.mp hx with h | h
        · exact absurd hd2 (hn2 x h)
        · exact h
      have := h1.new_low_ge x hx2 hnd
      rw [h2.low_pres x hd2 hxv] at *
      exact le_trans h2.low_v_le this
    · exact h2.new_low_ge x hx hd2
  · intro x hnd hd3
    by_cases hd2 : discovered σ2 x
    · rw [h2.idx_pres x hd2]
      exact h1.new_idx_ge x hnd hd2
    · exact le_trans h1.index_mono (h2.new_idx_ge x hd2 hd3)

/-- The neighbor loop of strongConnect preserves the invariant at gray
head v, accumulates low link bounds for every processed on stack target,
and leaves every processed visited target discovered, assuming the
specification of strongConnect at the same fuel. -/
theorem scNeighbors_spec {g : Graph} {vis : List String} (fuel : Nat)
    (ihSC : ∀ (p : List String) (σ : TarjanState) (v : String),
      TarjanInv g vis p σ → v ∈ vis → ¬ discovered σ v →
      (∀ x ∈ σ.stack, reaches g vis x v) → undisc vis σ ≤ fuel →
      SCPost g vis p σ (strongConnect g vis fuel σ v) v) :
    ∀ (ws p : List String) (σ : TarjanState) (v : String),
      TarjanInv g vis (v :: p) σ → v ∈ σ.stack → undisc vis σ ≤ fuel →
      (∀ w ∈ ws, w ∈ adjOf g v) →
      NSPost g vis p σ (scNeighbors g vis fuel σ v ws) v ∧
      edgeLows g (scNeighbors g vis fuel σ v ws) v ws ∧
      edgeDsc vis (scNeighbors g vis fuel σ v ws) ws := by
  intro ws
  induction ws with
  | nil =>
    intro p σ v inv hvs hfu _
    have heq : scNeighbors g vis fuel σ v [] = σ := by simp only [scNeighbors]
    rw [heq]
    exact ⟨⟨nsstep_refl g vis σ v inv.stack_dsc, inv⟩,
      fun w hw => absurd hw (List.not_mem_nil w),
      fun w hw => absurd hw (List.not_mem_nil w)⟩
  | cons w ws ihws =>
    intro p σ v inv hvs hfu hadj
    have hwadj : w ∈ adjOf g v := hadj w (List.mem_cons_self w ws)
    have htladj : ∀ u ∈ ws, u ∈ adjOf g v := fun u hu => hadj u (List.mem_cons_of_mem w hu)
    have hdv : discovered σ v := inv.stack_dsc v hvs
    by_cases hwvis : w ∈ vis
    · by_cases hwd : discovered σ w
      · by_cases hwos : w ∈ σ.onStack
        · -- the target is discovered and on the stack: absorb its index
          set σ3 : TarjanState :=
            { σ with lowLink := insertS σ.lowLink v (min (lowOf σ v) (idxOf σ w)) }
            with hσ3def
          have hwd2 : (lookupS σ.indices w).isSome = true := hwd
          have heq : scNeighbors g vis fuel σ v (w :: ws) =
              scNeighbors g vis fuel σ3 v ws := by
            simp only [scNeighbors]
            rw [if_neg (not_not_intro hwvis), if_pos hwd2, if_pos hwos]
            rfl
          rw [heq]
          have hwstack : w ∈ σ.stack := (inv.onStack_iff w).mp hwos
          have inv3 : TarjanInv g vis (v :: p) σ3 := by
            refine tarjan_lower inv.toTarjanInvCore hvs ?_ ?_
            · exact Or.inl ⟨w, hwstack, rfl, reaches_single ⟨hwadj, hwvis⟩⟩
            · intro x hx hxp γ hγ hγlt hγmax
              have h0 := inv.black_low_gray x hx hxp γ hγ hγlt hγmax
              constructor
              · intro _
                exact h0
              · intro hγv
                rw [hγv] at h0
                exact le_trans (min_le_left _ _) h0
          have hstep : NSStep g vis σ σ3 v :=
            nsstep_lower g vis σ v (idxOf σ w) inv.stack_dsc
          have hfu3 : undisc vis σ3 ≤ fuel := hfu
          obtain ⟨hNS, hEL, hED⟩ := ihws p σ3 v inv3 hvs hfu3 htladj
          have hstepf := nsstep_trans hstep hNS.toNSStep hdv
          have hl3v : lowOf σ3 v = min (lowOf σ v) (idxOf σ w) := by
            show lookupD (insertS σ.lowLink v _) v 0 = _
            unfold lookupD
            rw [lookupS_insert_self]
            rfl
          refine ⟨⟨hstepf, hNS.inv⟩, ?_, ?_⟩
          · intro u hu
            rcases List.mem_cons.mp hu with huw | hut
            · intro hstk
              rw [huw]
              have h1 : lowOf (scNeighbors g vis fuel σ3 v ws) v ≤ lowOf σ3 v :=
                hNS.low_v_le
              have h4 : idxOf (scNeighbors g vis fuel σ3 v ws) w = idxOf σ w :=
                hNS.idx_pres w hwd
              rw [h4, hl3v] at *
              exact le_trans h1 (min_le_right _ _)
            · exact hEL u hut
          · intro u hu
            rcases List.mem_cons.mp hu with huw | hut
            · intro _
              rw [huw]
              exact hNS.dsc_mono w hwd
            · exact hED u hut
        · -- the target is discovered but already completed: skip it
          have hwd2 : (lookupS σ.indices w).isSome = true := hwd
          have heq : scNeighbors g vis fuel σ v (w :: ws) =
              scNeighbors g vis fuel σ v ws := by
            simp only [scNeighbors]
            rw [if_neg (not_not_intro hwvis), if_pos hwd2, if_neg hwos]
          rw [heq]
          obtain ⟨hNS, hEL, hED⟩ := ihws p σ v inv hvs hfu htladj
          refine ⟨hNS, ?_, ?_⟩
          · intro u hu
            rcases List.mem_cons.mp hu with huw | hut
            · intro hstk
              exfalso
              rw [huw] at hstk
              obtain ⟨Δ, hsf, hnΔ⟩ := hNS.stack_suffix
              rw [hsf] at hstk
              rcases List.mem_append.mp hstk with h | h
              · exact hnΔ w h hwd
              · exact hwos ((inv.onStack_iff w).mpr h)
            · exact hEL u hut
          · intro u hu
            rcases List.mem_cons.mp hu with huw | hut
            · intro _
              rw [huw]
              exact hNS.dsc_mono w hwd
            · exact hED u hut
      · -- the target is undiscovered: recurse and absorb its low link
        set σsc := strongConnect g vis fuel σ w with hσsc
        have hwd2 : ¬ ((lookupS σ.indices w).isSome = true) := hwd
        set σ3 : TarjanState :=
          { σsc with lowLink := insertS σsc.lowLink v (min (lowOf σsc v) (lowOf σsc w)) }
          with hσ3def
        have heq : scNeighbors g vis fuel σ v (w :: ws) =
            scNeighbors g vis fuel σ3 v ws := by
          simp only [scNeighbors]
          rw [if_neg (not_not_intro hwvis), if_neg hwd2]
          rfl
        rw [heq]
        have hPE : ∀ x ∈ σ.stack, reaches g vis x w := by
          intro x hx
          exact reaches_trans (stack_reaches_gray_head inv.toTarjanInvCore hvs x hx)
            (reaches_single ⟨hwadj, hwvis⟩)
        have hSC : SCPost g vis (v :: p) σ σsc w := ihSC (v :: p) σ w inv hwvis hwd hPE hfu
        obtain ⟨Δ1, hsΔ1, hnΔ1⟩ := hSC.stack_suffix
        have hvsc : v ∈ σsc.stack := by
          rw [hsΔ1]
          exact List.mem_append_right Δ1 hvs
        have hlowvpres : lowOf σsc v = lowOf σ v := hSC.low_pres v hdv
        have hidxvpres : idxOf σsc v = idxOf σ v := hSC.idx_pres v hdv
        have hl3v : lowOf σ3 v = min (lowOf σsc v) (lowOf σsc w) := by
          show lookupD (insertS σsc.lowLink v _) v 0 = _
          unfold lookupD
          rw [lookupS_insert_self]
          rfl
        have hl3old : ∀ x, x ≠ v → lowOf σ3 x = lowOf σsc x := by
          intro x hx
          show lookupD (insertS σsc.lowLink v _) x 0 = lookupD σsc.lowLink x 0
          unfold lookupD
          rw [lookupS_insert_ne σsc.lowLink v x _ hx]
        have inv3 : TarjanInv g vis (v :: p) σ3 := by
          refine tarjan_lower hSC.core hvsc ?_ ?_
          · rcases hSC.pop_cases with ⟨hle, hstkeq, hinscc, hnews⟩ | ⟨hlt, hwstk, hnos⟩
            · refine Or.inr ?_
              have h1 : lowOf σ v ≤ idxOf σ v := inv.low_le v hdv (inv.not_both v hvs)
              have h2 : idxOf σ v < σ.index := inv.idx_lt v hdv
              rw [hlowvpres, hle, hSC.idx_v]
              omega
            · obtain ⟨y, hy, hyi, hyr⟩ := hSC.core.low_real w hSC.dsc_v hnos
              exact Or.inl ⟨y, hy, hyi, reaches_trans (reaches_single ⟨hwadj, hwvis⟩) hyr⟩
          · intro x hx hxp γ hγ hγlt hγmax
            by_cases hxold : x ∈ σ.stack
            · have h0 := hSC.old_black_low_gray x hx hxp hxold γ hγ hγlt hγmax
              constructor
              · intro _
                exact h0
              · intro hγv
                rw [hγv] at h0
                exact le_trans (min_le_left _ _) h0
            · have hxnd : ¬ discovered σ x := by
                rw [hsΔ1] at hx
                rcases List.mem_append.mp hx with h | h
                · exact hnΔ1 x h
                · exact absurd h hxold
              have hxd : discovered σsc x := hSC.core.stack_dsc x hx
              have hxidx : σ.index ≤ idxOf σsc x := hSC.new_idx_ge x hxnd hxd
              rcases List.mem_cons.mp hγ with hγv | hγp
              · have h0 := hSC.new_low_ge x hx hxnd
                constructor
                · intro hne
                  exact absurd hγv hne
                · intro _
                  exact le_trans (min_le_right _ _) h0
              · exfalso
                have hvlt : idxOf σsc v < idxOf σsc x := by
                  rw [hidxvpres]
                  have := inv.idx_lt v hdv
                  omega
                have hmax := hγmax v (List.mem_cons_self v p) hvlt
                have hpair : (v :: p).Pairwise (fun a b => idxOf σsc b < idxOf σsc a) :=
                  hSC.core.stack_sorted.sublist hSC.core.gray_sublist
                have hγlt2 : idxOf σsc γ < idxOf σsc v :=
                  (List.pairwise_cons.mp hpair).1 γ hγp
                omega
        have hstep : NSStep g vis σ σ3 v := by
          refine ⟨fun x h => hSC.dsc_mono x h, fun x h => hSC.idx_pres x h, ?_, ?_,
            fun x h => hSC.inScc_mono x h, le_of_lt hSC.index_gt, ⟨Δ1, hsΔ1, hnΔ1⟩,
            hSC.sccs_suffix, ?_, le_of_lt hSC.undisc_lt, ?_, fun x h h2 => hSC.new_idx_ge x h h2⟩
          · intro x h hxv
            rw [hl3old x hxv]
            exact hSC.low_pres x h
          · rw [hl3v, hlowvpres]
            exact min_le_left _ _
          · intro x hnd hd
            exact reaches_head ⟨hwadj, hwvis⟩ (hSC.reach_new x hnd hd)
          · intro x hx hnd
            have hxv : x ≠ v := fun he => hnd (he ▸ hdv)
            rw [hl3v, hl3old x hxv]
            exact le_trans (min_le_right _ _) (hSC.new_low_ge x hx hnd)
        have hfu3 : undisc vis σ3 ≤ fuel := le_trans (le_of_lt hSC.undisc_lt) hfu
        obtain ⟨hNS, hEL, hED⟩ := ihws p σ3 v inv3 hvsc hfu3 htladj
        have hstepf := nsstep_trans hstep hNS.toNSStep hdv
        refine ⟨⟨hstepf, hNS.inv⟩, ?_, ?_⟩
        · intro u hu
          rcases List.mem_cons.mp hu with huw | hut
          · intro hstk
            rw [huw] at hstk ⊢
            rcases hSC.pop_cases with ⟨hle, hstkeq, hinscc, hnews⟩ | ⟨hlt, hwstk, hnos⟩
            · exfalso
              obtain ⟨Δ2, hs2, hn2⟩ := hNS.stack_suffix
              rw [hs2] at hstk
              rcases List.mem_append.mp hstk with h | h
              · exact hn2 w h hSC.dsc_v
              · have hstk3 : σ3.stack = σ.stack := hstkeq
                rw [hstk3] at h
                exact hwd (inv.stack_dsc w h)
            · have h1 : lowOf (scNeighbors g vis fuel σ3 v ws) v ≤ lowOf σ3 v :=
                hNS.low_v_le
              have h2 : lowOf σ3 v ≤ lowOf σsc w := by
                rw [hl3v]
                exact min_le_right _ _
              have h3 : lowOf σsc w ≤ idxOf σsc w := hSC.core.low_le w hSC.dsc_v hnos
              have h4 : idxOf (scNeighbors g vis fuel σ3 v ws) w = idxOf σsc w :=
                hNS.idx_pres w hSC.dsc_v
              rw [h4]
              omega
          · exact hEL u hut
        · intro u hu
          rcases List.mem_cons.mp hu with huw | hut
          · intro _
            rw [huw]
            exact hNS.dsc_mono w hSC.dsc_v
          · exact hED u hut
    · -- the target is not a visited node: the loop skips it entirely
      have heq : scNeighbors g vis fuel σ v (w :: ws) =
          scNeighbors g vis fuel σ v ws := by
        simp only [scNeighbors]
        rw [if_pos hwvis]
      rw [heq]
      obtain ⟨hNS, hEL, hED⟩ := ihws p σ v inv hvs hfu htladj
      refine ⟨hNS, ?_, ?_⟩
      · intro u hu
        rcases List.mem_cons.mp hu with huw | hut
        · intro hstk
          exact absurd (huw ▸ hNS.inv.stack_vis u hstk) hwvis
        · exact hEL u hut
      · intro u hu
        rcases List.mem_cons.mp hu with huw | hut
        · intro huvis
          exact absurd (huw ▸ huvis) hwvis
        · exact hED u hut

/-- The specification of strongConnect: starting from an invariant state
with undiscovered v reachable from the whole stack, the call discovers v,
explores exactly the nodes reachable through it, and either pops its
whole component (exact connectivity class) or leaves it on the stack with
a strictly lower low link. -/
theorem strongConnect_spec {g : Graph} {vis : List String} :
    ∀ (fuel : Nat) (p : List String) (σ : TarjanState) (v : String),
      TarjanInv g vis p σ → v ∈ vis → ¬ discovered σ v →
      (∀ x ∈ σ.stack, reaches g vis x v) → undisc vis σ ≤ fuel →
      SCPost g vis p σ (strongConnect g vis fuel σ v) v := by
  intro fuel
  induction fuel with
  | zero =>
    intro p σ v _ hv hnd _ hfu
    have := undisc_pos v hv hnd
    omega
  | succ fuel ih =>
    intro p σ v inv hv hnd hPE hfu
    have hvstack : ¬ v ∈ σ.stack := fun h => hnd (inv.stack_dsc v h)
    set σ1 : TarjanState :=
      { index := σ.index + 1
        indices := insertS σ.indices v σ.index
        lowLink := insertS σ.lowLink v σ.index
        stack := v :: σ.stack
        onStack := addS σ.onStack v
        sccs := σ.sccs } with hσ1def
    have inv1 : TarjanInv g vis (v :: p) σ1 := tarjan_push inv hv hnd hPE
    have hd1v : discovered σ1 v := by
      show (lookupS (insertS σ.indices v σ.index) v).isSome = true
      rw [lookupS_insert_self]
      rfl
    have hd01 : ∀ x, discovered σ x → discovered σ1 x := by
      intro x hx
      show (lookupS (insertS σ.indices v σ.index) x).isSome = true
      rw [lookup_insert_isSome]
      exact Or.inr hx
    have hne_v : ∀ x, discovered σ x → x ≠ v := fun x hx he => hnd (he ▸ hx)
    have hd10 : ∀ x, x ≠ v → discovered σ1 x → discovered σ x := by
      intro x hxv hx
      have := (lookup_insert_isSome σ.indices v x σ.index).mp hx
      rcases this with h | h
      · exact absurd h hxv
      · exact h
    have hidx01 : ∀ x, x ≠ v → idxOf σ1 x = idxOf σ x := by
      intro x hxv
      show lookupD (insertS σ.indices v σ.index) x 0 = lookupD σ.indices x 0
      unfold lookupD
      rw [lookupS_insert_ne σ.indices v x σ.index hxv]
    have hlow01 : ∀ x, x ≠ v → lowOf σ1 x = lowOf σ x := by
      intro x hxv
      show lookupD (insertS σ.lowLink v σ.index) x 0 = lookupD σ.lowLink x 0
      unfold lookupD
      rw [lookupS_insert_ne σ.lowLink v x σ.index hxv]
    have hidx1v : idxOf σ1 v = σ.index := by
      show lookupD (insertS σ.indices v σ.index) v 0 = σ.index
      unfold lookupD
      rw [lookupS_insert_self]
      rfl
    have hundisc1 : undisc vis σ1 < undisc vis σ :=
      undisc_lt_of_new v hv hnd hd1v hd01
    have hfu1 : undisc vis σ1 ≤ fuel := by omega
    have hvs1 : v ∈ σ1.stack := List.mem_cons_self v σ.stack
    obtain ⟨hNS, hEL, hED⟩ := scNeighbors_spec fuel ih (adjOf g v) p σ1 v inv1 hvs1 hfu1
      (fun u hu => hu)
    set σ2 := scNeighbors g vis fuel σ1 v (adjOf g v) with hσ2def
    obtain ⟨Δ, hsΔ, hnΔ⟩ := hNS.stack_suffix
    have hvnotΔ : ¬ v ∈ Δ := fun h => hnΔ v h hd1v
    have hsplit : σ2.stack = Δ ++ v :: σ.stack := hsΔ
    have hvs2 : v ∈ σ2.stack := by
      rw [hsplit]
      exact List.mem_append_right Δ (List.mem_cons_self v σ.stack)
    have hidx2v : idxOf σ2 v = σ.index := by
      rw [hNS.idx_pres v hd1v, hidx1v]
    have hdsc2v : discovered σ2 v := hNS.dsc_mono v hd1v
    have hd02 : ∀ x, discovered σ x → discovered σ2 x :=
      fun x hx => hNS.dsc_mono x (hd01 x hx)
    have hidx02 : ∀ x, discovered σ x → idxOf σ2 x = idxOf σ x := by
      intro x hx
      rw [hNS.idx_pres x (hd01 x hx), hidx01 x (hne_v x hx)]
    have hlow02 : ∀ x, discovered σ x → lowOf σ2 x = lowOf σ x := by
      intro x hx
      rw [hNS.low_pres x (hd01 x hx) (hne_v x hx), hlow01 x (hne_v x hx)]
    have hnew2 : ∀ x, ¬ discovered σ x → x ≠ v → ¬ discovered σ1 x := by
      intro x hx hxv h1
      exact hx (hd10 x hxv h1)
    have hnewidx : ∀ x, ¬ discovered σ x → discovered σ2 x → σ.index ≤ idxOf σ2 x := by
      intro x hx hd2
      by_cases hxv : x = v
      · rw [hxv, hidx2v]
      · exact le_trans (Nat.le_succ _) (hNS.new_idx_ge x (hnew2 x hx hxv) hd2)
    have hreach2 : ∀ x, ¬ discovered σ x → discovered σ2 x → reaches g vis v x := by
      intro x hx hd2
      by_cases hxv : x = v
      · rw [hxv]
        exact reaches_refl g vis v
      · exact hNS.reach_new x (hnew2 x hx hxv) hd2
    obtain ⟨N, hcN, hmN⟩ := hNS.sccs_suffix
    have hscc12 : σ2.sccs = σ.sccs ++ N := hcN
    have hinScc02 : ∀ x, inScc σ x → inScc σ2 x := by
      intro x hx
      exact hNS.inScc_mono x hx
    have hundisc2 : undisc vis σ2 < undisc vis σ :=
      lt_of_le_of_lt hNS.undisc_le hundisc1
    have hindex2 : σ.index < σ2.index := lt_of_lt_of_le (Nat.lt_succ_self _) hNS.index_mono
    have hoblg : ∀ x ∈ σ2.stack, ¬ x ∈ p → x ∈ σ.stack → ∀ γ ∈ p,
        idxOf σ2 γ < idxOf σ2 x →
        (∀ γ2 ∈ p, idxOf σ2 γ2 < idxOf σ2 x → idxOf σ2 γ2 ≤ idxOf σ2 γ) →
        lowOf σ2 γ ≤ lowOf σ2 x := by
      intro x hx hxp hxold γ hγ hγlt hγmax
      have hxv : x ≠ v := fun he => hvstack (he ▸ hxold)
      have hxvp : ¬ x ∈ v :: p := by
        intro h
        rcases List.mem_cons.mp h with h2 | h2
        · exact hxv h2
        · exact hxp h2
      refine hNS.inv.black_low_gray x hx hxvp γ (List.mem_cons_of_mem v hγ) hγlt ?_
      intro γ2 hγ2 hγ2lt
      rcases List.mem_cons.mp hγ2 with hγ2v | hγ2p
      · exfalso
        have hxd : discovered σ x := inv.stack_dsc x hxold
        have : idxOf σ2 x < σ.index := by
          rw [hidx02 x hxd]
          exact inv.idx_lt x hxd
        rw [hγ2v, hidx2v] at hγ2lt
        omega
      · exact hγmax γ2 hγ2p hγ2lt
    have heq : strongConnect g vis (fuel + 1) σ v =
        (if lowOf σ2 v = idxOf σ2 v then
          { σ2 with
            stack := (popUntil v σ2.stack).2
            onStack := σ2.onStack.filter (fun x => decide (¬ x ∈ (popUntil v σ2.stack).1))
            sccs := σ2.sccs ++ [(popUntil v σ2.stack).1] }
        else σ2) := by
      simp only [strongConnect]
      rfl
    rw [heq]
    by_cases hroot : lowOf σ2 v = idxOf σ2 v
    · rw [if_pos hroot]
      have hpop : popUntil v σ2.stack = (Δ ++ [v], σ.stack) := by
        rw [hsplit]
        exact popUntil_spec v Δ σ.stack hvnotΔ
      rw [hpop]
      show SCPost g vis p σ
        { σ2 with
          stack := σ.stack
          onStack := σ2.onStack.filter (fun x => decide (¬ x ∈ (Δ ++ [v])))
          sccs := σ2.sccs ++ [Δ ++ [v]] } v
      obtain ⟨invP, hclass⟩ := tarjan_pop hNS.inv hsplit hEL hED hroot
      set σP : TarjanState :=
        { σ2 with
          stack := σ.stack
          onStack := σ2.onStack.filter (fun x => decide (¬ x ∈ (Δ ++ [v])))
          sccs := σ2.sccs ++ [Δ ++ [v]] } with hσPdef
      have hinP : ∀ x, inScc σ2 x → inScc σP x := by
        intro x hx
        obtain ⟨C, hC, hxC⟩ := List.mem_join.mp hx
        exact List.mem_join.mpr ⟨C, List.mem_append_left _ hC, hxC⟩
      have hvP : inScc σP v := by
        refine List.mem_join.mpr ⟨Δ ++ [v], ?_, ?_⟩
        · exact List.mem_append_right _ (List.mem_singleton_self _)
        · exact List.mem_append_right Δ (List.mem_singleton_self v)
      refine ⟨invP.toTarjanInvCore, ?_, ?_, hd02, hidx02, hlow02,
        fun x hx => hinP x (hinScc02 x hx), hindex2, hdsc2v, hidx2v, hnewidx,
        ⟨[], rfl, fun x h => absurd h (List.not_mem_nil x)⟩,
        ⟨N ++ [Δ ++ [v]], by
          show σ2.sccs ++ [Δ ++ [v]] = σ.sccs ++ (N ++ [Δ ++ [v]])
          rw [hscc12, List.append_assoc], ?_⟩,
        hreach2, hundisc2, ?_⟩
      · intro x hx2 hxp hxold γ hγ hγlt hγmax
        have hx2b : x ∈ σ2.stack := by
          rw [hsplit]
          exact List.mem_append_right Δ (List.mem_cons_of_mem v hxold)
        exact hoblg x hx2b hxp hxold γ hγ hγlt hγmax
      · intro x hx hnd2
        exact absurd (inv.stack_dsc x hx) hnd2
      · intro C hC x hxC
        rcases List.mem_append.mp hC with h | h
        · intro hd
          exact hmN C h x hxC (hd01 x hd)
        · rw [List.mem_singleton.mp h] at hxC
          rcases List.mem_append.mp hxC with h2 | h2
          · intro hd
            exact hnΔ x h2 (hd01 x hd)
          · rw [List.mem_singleton.mp h2]
            exact hnd
      · refine Or.inl ⟨hroot, rfl, hvP, ?_⟩
        intro x hx hd2
        by_cases hxv : x = v
        · rw [hxv]
          exact hvP
        · rcases hNS.inv.dsc_split x hd2 with hstk | hscc
          · rw [hsplit] at hstk
            rcases List.mem_append.mp hstk with h | h
            · refine List.mem_join.mpr ⟨Δ ++ [v], ?_, List.mem_append_left _ h⟩
              exact List.mem_append_right _ (List.mem_singleton_self _)
            · rcases List.mem_cons.mp h with h2 | h2
              · exact absurd h2 hxv
              · exact absurd (inv.stack_dsc x h2) hx
          · exact hinP x hscc
    · rw [if_neg hroot]
      have hvnotscc : ¬ inScc σ2 v := hNS.inv.not_both v hvs2
      have hlowle : lowOf σ2 v ≤ idxOf σ2 v := hNS.inv.low_le v hdsc2v hvnotscc
      have hlowlt : lowOf σ2 v < idxOf σ2 v := lt_of_le_of_ne hlowle hroot
      refine ⟨⟨hNS.inv.stack_nodup, hNS.inv.stack_vis, hNS.inv.onStack_iff,
        hNS.inv.stack_dsc, hNS.inv.dsc_split, hNS.inv.not_both, hNS.inv.dsc_vis,
        hNS.inv.inScc_dsc, hNS.inv.low_dom, hNS.inv.idx_lt, hNS.inv.idx_inj,
        hNS.inv.stack_sorted, (List.sublist_cons_self v p).trans hNS.inv.gray_sublist,
        hNS.inv.reach_up, ?_, hNS.inv.low_le, hNS.inv.low_real, ?_, ?_,
        hNS.inv.sccs_classes, hNS.inv.sccs_join_nodup⟩,
        hoblg, ?_, hd02, hidx02, hlow02, hinScc02, hindex2, hdsc2v, hidx2v, hnewidx,
        ⟨Δ ++ [v], by rw [hsplit, List.append_assoc]; rfl, ?_⟩,
        ⟨N, hscc12, fun C hC x hxC hd => hmN C hC x hxC (hd01 x hd)⟩,
        hreach2, hundisc2, Or.inr ⟨hlowlt, hvs2, hvnotscc⟩⟩
      · -- gray_return for the outer context p
        intro x hx
        obtain ⟨γ, hγ, hγle, hγr⟩ := hNS.inv.gray_return x hx
        rcases List.mem_cons.mp hγ with hγv | hγp
        · obtain ⟨y, hy, hyi, hyr⟩ := hNS.inv.low_real v hdsc2v hvnotscc
          have hylt : idxOf σ2 y < idxOf σ2 v := by omega
          obtain ⟨γ2, hγ2, hγ2le, hγ2r⟩ := hNS.inv.gray_return y hy
          rcases List.mem_cons.mp hγ2 with hγ2v | hγ2p
          · exfalso
            rw [hγ2v] at hγ2le
            omega
          · refine ⟨γ2, hγ2p, ?_, ?_⟩
            · rw [hγv] at hγle
              omega
            · rw [hγv] at hγr
              exact reaches_trans hγr (reaches_trans hyr hγ2r)
        · exact ⟨γ, hγp, hγle, hγr⟩
      · -- black_explored for the outer context p
        intro x hxd hxp w hw
        by_cases hxv : x = v
        · rw [hxv] at hw
          exact hED w hw.1 hw.2
        · refine hNS.inv.black_explored x hxd ?_ w hw
          intro h
          rcases List.mem_cons.mp h with h2 | h2
          · exact hxv h2
          · exact hxp h2
      · -- black_low_edge for the outer context p
        intro x hx hxp w hw hws
        by_cases hxv : x = v
        · rw [hxv]
          rw [hxv] at hw
          exact hEL w hw.1 hws
        · refine hNS.inv.black_low_edge x hx ?_ w hw hws
          intro h
          rcases List.mem_cons.mp h with h2 | h2
          · exact hxv h2
          · exact hxp h2
      · -- new stack members are all newly discovered
        intro x hx hnd2
        by_cases hxv : x = v
        · rw [hxv]
        · exact hNS.new_low_ge x hx (hnew2 x hnd2 hxv)
      · intro x hxΔv
        rcases List.mem_append.mp hxΔv with h | h
        · intro hd
          exact hnΔ x h (hd01 x hd)
        · rw [List.mem_singleton.mp h]
          exact hnd

/-- Helper: the empty Tarjan state satisfies the invariant with empty
gray context. -/
theorem tarjanInit_inv (g : Graph) (vis : List String) :
    TarjanInv g vis [] tarjanInit := by
  refine ⟨⟨List.nodup_nil, ?_, fun x => Iff.rfl, ?_, ?_, ?_, ?_, ?_, fun x => Iff.rfl,
    ?_, ?_, List.Pairwise.nil, List.nil_sublist _, ?_, ?_, ?_, ?_, ?_, ?_, ?_,
    List.nodup_nil⟩, ?_⟩
  · intro x hx
    exact absurd hx (List.not_mem_nil x)
  · intro x hx
    exact absurd hx (List.not_mem_nil x)
  · intro x hx
    exact Bool.noConfusion hx
  · intro x hx
    exact absurd hx (List.not_mem_nil x)
  · intro x hx
    exact Bool.noConfusion hx
  · intro x hx
    exact absurd hx (List.not_mem_nil x)
  · intro x hx
    exact Bool.noConfusion hx
  · intro x y hx
    exact Bool.noConfusion hx
  · intro x hx
    exact absurd hx (List.not_mem_nil x)
  · intro x hx
    exact absurd hx (List.not_mem_nil x)
  · intro x hx
    exact Bool.noConfusion hx
  · intro x hx
    exact Bool.noConfusion hx
  · intro x hx
    exact Bool.noConfusion hx
  · intro x hx
    exact absurd hx (List.not_mem_nil x)
  · intro C hC
    exact absurd hC (List.not_mem_nil C)
  · intro x hx
    exact absurd hx (List.not_mem_nil x)

/-- Helper: the driver fold preserves the invariant with empty stack, is
monotone in discovery, and discovers every processed node. -/
theorem tarjanRun_fold {g : Graph} {vis : List String} :
    ∀ (l : List String) (σ : TarjanState), (∀ x ∈ l, x ∈ vis) →
      TarjanInv g vis [] σ → σ.stack = [] →
      TarjanInv g vis [] (l.foldl (tarjanStep g vis) σ) ∧
        (l.foldl (tarjanStep g vis) σ).stack = [] ∧
        (∀ x, discovered σ x → discovered (l.foldl (tarjanStep g vis) σ) x) ∧
        (∀ x ∈ l, discovered (l.foldl (tarjanStep g vis) σ) x) := by
  intro l
  induction l with
  | nil =>
    intro σ _ inv hstk
    exact ⟨inv, hstk, fun x h => h, fun x hx => absurd hx (List.not_mem_nil x)⟩
  | cons a l ihl =>
    intro σ hl inv hstk
    have hla : a ∈ vis := hl a (List.mem_cons_self a l)
    have hll : ∀ x ∈ l, x ∈ vis := fun x hx => hl x (List.mem_cons_of_mem a hx)
    rw [List.foldl_cons]
    by_cases had : (lookupS σ.indices a).isSome = true
    · have hstep : tarjanStep g vis σ a = σ := by
        unfold tarjanStep
        rw [if_pos had]
      rw [hstep]
      obtain ⟨h1, h2, h3, h4⟩ := ihl σ hll inv hstk
      refine ⟨h1, h2, h3, ?_⟩
      intro x hx
      rcases List.mem_cons.mp hx with hxa | hxl
      · rw [hxa]
        exact h3 a had
      · exact h4 x hxl
    · have hstep : tarjanStep g vis σ a = strongConnect g vis (vis.length + 1) σ a := by
        unfold tarjanStep
        rw [if_neg had]
      rw [hstep]
      have hfu : undisc vis σ ≤ vis.length + 1 :=
        le_trans (List.length_filter_le _ _) (Nat.le_succ _)
      have hPE : ∀ x ∈ σ.stack, reaches g vis x a := by
        intro x hx
        rw [hstk] at hx
        exact absurd hx (List.not_mem_nil x)
      have post := strongConnect_spec (vis.length + 1) [] σ a inv hla had hPE hfu
      set σa := strongConnect g vis (vis.length + 1) σ a with hσa
      have inva : TarjanInv g vis [] σa := by
        refine ⟨post.core, ?_⟩
        intro x hx hxp γ hγ
        exact absurd hγ (List.not_mem_nil γ)
      have hstka : σa.stack = [] := by
        rcases post.pop_cases with ⟨_, hstkeq, _, _⟩ | ⟨hlt, hvstk, hnos⟩
        · rw [hstkeq, hstk]
        · exfalso
          obtain ⟨y, hy, hyi, _⟩ := post.core.low_real a post.dsc_v hnos
          obtain ⟨Δ, hsd, hnd⟩ := post.stack_suffix
          have hyΔ : y ∈ Δ := by
            rw [hsd, hstk, List.append_nil] at hy
            exact hy
          have hynd : ¬ discovered σ y := hnd y hyΔ
          have hyd : discovered σa y := post.core.stack_dsc y hy
          have h1 := post.new_idx_ge y hynd hyd
          have h2 := post.idx_v
          omega
      obtain ⟨h1, h2, h3, h4⟩ := ihl σa hll inva hstka
      refine ⟨h1, h2, fun x hx => h3 x (post.dsc_mono x hx), ?_⟩
      intro x hx
      rcases List.mem_cons.mp hx with hxa | hxl
      · rw [hxa]
        exact h3 a post.dsc_v
      · exact h4 x hxl

/-- The Tarjan driver produces exactly the strongly connected components
of the traversable subgraph: each output component is the connectivity
class of each of its members, the components are disjoint (duplicate free
join), and together they cover exactly the visited list. -/
theorem tarjanRun_spec (g : Graph) (vis : List String) :
    (∀ C ∈ (tarjanRun g vis).sccs, C ≠ [] ∧ ∀ u ∈ C, ∀ w, conn g vis u w ↔ w ∈ C) ∧
    (tarjanRun g vis).sccs.join.Nodup ∧
    (∀ x, x ∈ (tarjanRun g vis).sccs.join ↔ x ∈ vis) := by
  have heq : tarjanRun g vis = vis.foldl (tarjanStep g vis) tarjanInit := rfl
  obtain ⟨hinv, hstk, _, hcov⟩ :=
    tarjanRun_fold vis tarjanInit (fun x h => h) (tarjanInit_inv g vis) rfl
  rw [heq]
  refine ⟨hinv.sccs_classes, hinv.sccs_join_nodup, ?_⟩
  intro x
  constructor
  · intro hx
    exact hinv.dsc_vis x (hinv.inScc_dsc x hx)
  · intro hx
    rcases hinv.dsc_split x (hcov x hx) with h | h
    · rw [hstk] at h
      exact absurd h (List.not_mem_nil x)
    · exact h

/-- Helper: for a duplicate free component list C with the same members
as the finite set S, the three boolean promotion checks of the analyzer
coincide with the three set level properties of the specification. -/
theorem goodLoop_set_iff (g : Graph) (C : List String) (S : Finset String)
    (hnd : C.Nodup) (hCS : ∀ x, x ∈ C ↔ x ∈ S) :
    (isCandidateLoop g C = true ↔ candidateSet g S) ∧
    (sccHasEnding g C = false ↔ terminalFreeSet g S) ∧
    (sccCanEscape g C = false ↔ closedSet g S) := by
  have hSC : S = C.toFinset := by
    ext x
    rw [List.mem_toFinset]
    exact (hCS x).symm
  have hcard : S.card = C.length := by
    rw [hSC, List.toFinset_card_of_nodup hnd]
  refine ⟨⟨?_, ?_⟩, ⟨?_, ?_⟩, ⟨?_, ?_⟩⟩
  · intro h
    unfold isCandidateLoop at h
    by_cases hlen : C.length > 1
    · left
      rw [hcard]
      exact hlen
    · rw [if_neg hlen] at h
      match C, h, hCS with
      | [u], h, hCS =>
        refine Or.inr ⟨u, ?_, of_decide_eq_true h⟩
        ext x
        rw [Finset.mem_singleton, ← hCS x, List.mem_singleton]
  · rintro (hcard1 | ⟨u, hSu, hedge⟩)
    · unfold isCandidateLoop
      rw [if_pos (hcard ▸ hcard1)]
    · cases C with
      | nil =>
        have := (hCS u).mpr (hSu ▸ Finset.mem_singleton_self u)
        exact absurd this (List.not_mem_nil u)
      | cons a t =>
        have ha : a = u := by
          have h2 : a ∈ S := (hCS a).mp (List.mem_cons_self a t)
          rw [hSu] at h2
          exact Finset.mem_singleton.mp h2
        cases t with
        | nil =>
          unfold isCandidateLoop
          rw [if_neg (show ¬ ([a].length > 1) from Nat.lt_irrefl 1)]
          rw [ha]
          exact decide_eq_true hedge
        | cons b t2 =>
          exfalso
          have hb : b = u := by
            have h2 : b ∈ S :=
              (hCS b).mp (List.mem_cons_of_mem a (List.mem_cons_self b t2))
            rw [hSu] at h2
            exact Finset.mem_singleton.mp h2
          have hna : ¬ a ∈ b :: t2 := (List.nodup_cons.mp hnd).1
          refine hna ?_
          rw [ha, hb]
          exact List.mem_cons_self u t2
  · intro h u huS hterm
    have : sccHasEnding g C = true := by
      unfold sccHasEnding
      rw [List.any_eq_true]
      exact ⟨u, (hCS u).mpr huS, decide_eq_true hterm⟩
    rw [h] at this
    exact Bool.noConfusion this
  · intro h
    cases he : sccHasEnding g C with
    | false => rfl
    | true =>
      exfalso
      unfold sccHasEnding at he
      rw [List.any_eq_true] at he
      obtain ⟨u, huC, hdec⟩ := he
      exact h u ((hCS u).mp huC) (of_decide_eq_true hdec)
  · intro h u huS w hw
    by_contra hwn
    have : sccCanEscape g C = true := by
      unfold sccCanEscape
      rw [List.any_eq_true]
      refine ⟨u, (hCS u).mpr huS, ?_⟩
      rw [List.any_eq_true]
      exact ⟨w, hw, decide_eq_true (fun hmem => hwn ((hCS w).mp hmem))⟩
    rw [h] at this
    exact Bool.noConfusion this
  · intro h
    cases he : sccCanEscape g C with
    | false => rfl
    | true =>
      exfalso
      unfold sccCanEscape at he
      rw [List.any_eq_true] at he
      obtain ⟨u, huC, hin⟩ := he
      rw [List.any_eq_true] at hin
      obtain ⟨w, hw, hdec⟩ := hin
      exact (of_decide_eq_true hdec) ((hCS w).mpr (h u ((hCS u).mp huC) w hw))

/-- C1: for a story whose entry knot resolves, the analysis returns the
four issue groups, its INESCAPABLE_LOOP issues are exactly the loop
issues of the promoted components, and a strongly connected component S
of the traversable subgraph is promoted (appears among the reported
components, up to list membership) if and only if it is a candidate loop
(more than one member, or one member with a self edge), has no terminal
member, and has no edge leaving it. -/
theorem c1_inescapable_loop_characterization {E : Type} (story : Story E) (k : Knot E)
    (hk : lookupS story.knots story.entryKnot = some k) :
    analyzeStory story = some (analyzeStoryWith story k) ∧
    ((analyzeStoryWith story k).issues.filter
        (fun i => i.code == IssueCode.INESCAPABLE_LOOP))
      = (loopComponents story k).map mkLoopIssue ∧
    (∀ S : Finset String,
      isSCC (buildGraph story) (visitedSet story k) S →
      ((∃ C ∈ loopComponents story k, ∀ x, x ∈ C ↔ x ∈ S) ↔
        (candidateSet (buildGraph story) S ∧
         terminalFreeSet (buildGraph story) S ∧
         closedSet (buildGraph story) S))) := by
  refine ⟨?_, ?_, ?_⟩
  · unfold analyzeStory
    rw [hk]
    rfl
  · show (((entryIssues story k ++ unreachableIssues story k) ++ deadEndIssues story k)
        ++ loopIssues story k).filter (fun i => i.code == IssueCode.INESCAPABLE_LOOP)
      = (loopComponents story k).map mkLoopIssue
    rw [List.filter_append, List.filter_append, List.filter_append]
    have h1 : (entryIssues story k).filter
        (fun i => i.code == IssueCode.INESCAPABLE_LOOP) = [] := by
      unfold entryIssues
      split
      · rfl
      · rfl
    have h2 : (unreachableIssues story k).filter
        (fun i => i.code == IssueCode.INESCAPABLE_LOOP) = [] := by
      refine List.filter_eq_nil.mpr ?_
      intro a ha
      obtain ⟨u, _, rfl⟩ := List.mem_map.mp ha
      simp [mkUnreachableIssue]
    have h3 : (deadEndIssues story k).filter
        (fun i => i.code == IssueCode.INESCAPABLE_LOOP) = [] := by
      refine List.filter_eq_nil.mpr ?_
      intro a ha
      obtain ⟨u, _, rfl⟩ := List.mem_map.mp ha
      simp [mkDeadEndIssue]
    have h4 : (loopIssues story k).filter
        (fun i => i.code == IssueCode.INESCAPABLE_LOOP) = loopIssues story k := by
      refine List.filter_eq_self.mpr ?_
      intro a ha
      obtain ⟨C, _, rfl⟩ := List.mem_map.mp ha
      rfl
    rw [h1, h2, h3, h4]
    rfl
  · obtain ⟨hclasses, hnodup, hjoin⟩ :=
      tarjanRun_spec (buildGraph story) (visitedSet story k)
    intro S hS
    constructor
    · rintro ⟨C, hCloop, hCS⟩
      have hmem : C ∈ (tarjanRun (buildGraph story) (visitedSet story k)).sccs.filter
          (goodLoop (buildGraph story)) := hCloop
      obtain ⟨hCsccs, hgood⟩ := List.mem_filter.mp hmem
      have hnd : C.Nodup := nodup_of_mem_join_nodup hCsccs hnodup
      obtain ⟨hcand_iff, hterm_iff, hesc_iff⟩ :=
        goodLoop_set_iff (buildGraph story) C S hnd hCS
      have hgood2 : (isCandidateLoop (buildGraph story) C
          && !sccHasEnding (buildGraph story) C
          && !sccCanEscape (buildGraph story) C) = true := hgood
      simp only [Bool.and_eq_true, Bool.not_eq_true'] at hgood2
      obtain ⟨⟨hb1, hb2⟩, hb3⟩ := hgood2
      exact ⟨hcand_iff.mp hb1, hterm_iff.mp hb2, hesc_iff.mp hb3⟩
    · rintro ⟨hcand, hterm, hclosed⟩
      obtain ⟨u0, hu0vis, hu0S⟩ := hS
      have hu0join : u0 ∈ (tarjanRun (buildGraph story) (visitedSet story k)).sccs.join :=
        (hjoin u0).mpr hu0vis
      obtain ⟨C, hCsccs, hu0C⟩ := List.mem_join.mp hu0join
      obtain ⟨hCne, hCclass⟩ := hclasses C hCsccs
      have hCS : ∀ x, x ∈ C ↔ x ∈ S := by
        intro x
        exact ((hCclass u0 hu0C x).symm.trans (hu0S x).symm)
      have hnd : C.Nodup := nodup_of_mem_join_nodup hCsccs hnodup
      obtain ⟨hcand_iff, hterm_iff, hesc_iff⟩ :=
        goodLoop_set_iff (buildGraph story) C S hnd hCS
      refine ⟨C, ?_, hCS⟩
      show C ∈ (tarjanRun (buildGraph story) (visitedSet story k)).sccs.filter
        (goodLoop (buildGraph story))
      refine List.mem_filter.mpr ⟨hCsccs, ?_⟩
      show (isCandidateLoop (buildGraph story) C
        && !sccHasEnding (buildGraph story) C
        && !sccCanEscape (buildGraph story) C) = true
      rw [hcand_iff.mpr hcand, hterm_iff.mpr hterm, hesc_iff.mpr hclosed]
      rfl

/-- C1 witness: the loop fixture discharges the entry knot hypothesis at
a concrete input. -/
theorem c1_witness :
    analyzeStory loopStory = some (analyzeStoryWith loopStory loopStoryKnot) ∧
    ((analyzeStoryWith loopStory loopStoryKnot).issues.filter
        (fun i => i.code == IssueCode.INESCAPABLE_LOOP))
      = (loopComponents loopStory loopStoryKnot).map mkLoopIssue ∧
    (∀ S : Finset String,
      isSCC (buildGraph loopStory) (visitedSet loopStory loopStoryKnot) S →
      ((∃ C ∈ loopComponents loopStory loopStoryKnot, ∀ x, x ∈ C ↔ x ∈ S) ↔
        (candidateSet (buildGraph loopStory) S ∧
         terminalFreeSet (buildGraph loopStory) S ∧
         closedSet (buildGraph loopStory) S))) :=
  c1_inescapable_loop_characterization loopStory loopStoryKnot rfl

end Woven
